import Mathlib

/-!
Verification of the offline download and cache subsystem of a browser audio
library application. The definitions below are a shallow embedding of the
TypeScript sources: the download queue manager (`download-manager.ts`), the
persistence and eviction layer (`storage-manager.ts`), and the byte-stream
fetch loop (`archive-fetcher.ts`). JavaScript `Map` objects become
association lists that preserve insertion order, numbers become `Nat`/`Int`
(and `Rat` for the floating-point percentage field), async effects become
explicit state transitions. Each claim about the system is stated and
settled as a theorem at the end of the file.
-/

namespace Noorbakhshia

/-- Task status, `DownloadTask.status` in the source:
`'pending' | 'downloading' | 'completed' | 'failed' | 'paused'`. -/
inductive Status where
  | pending
  | downloading
  | completed
  | failed
  | paused
deriving DecidableEq, Repr

/-- `DownloadTask` from the source type declarations: one record per item
tracking its offline-availability lifecycle. `progress` is a percentage
(a JavaScript float, embedded as `Rat`). -/
structure DownloadTask where
  lectureId : String
  status : Status
  progress : Rat
  bytesDownloaded : Nat
  totalBytes : Nat
  startedAt : Option Nat := none
  completedAt : Option Nat := none
  error : Option String := none
deriving DecidableEq, Repr

/-- The fields of `Lecture` that the download subsystem reads. -/
structure Lecture where
  id : String
  fileSize : Nat
  isDownloaded : Bool := false
  downloadedAt : Option Nat := none
deriving DecidableEq, Repr

/-- One record of the `audioCache` object store: the cached binary payload
for one item, keyed by `lectureId`. The blob is a byte list. -/
structure CacheEntry where
  lectureId : String
  blob : List Nat
  size : Nat
  cachedAt : Nat
  lastAccessed : Nat
deriving DecidableEq, Repr

/-- Result of `StorageManager.getStorageStats`. -/
structure StorageStats where
  used : Int
  available : Int
  quota : Int
  usedPercentage : Rat
  audioBytes : Int
  cacheSize : Int
deriving DecidableEq, Repr

/-! Association-list embedding of a JavaScript `Map` (and of an IndexedDB
object store accessed by primary key). `mapSet` replaces in place, else
appends, matching the iteration-order semantics of `Map.set`. -/

/-- Lookup, first matching key. -/
def mapGet {α : Type} : List (String × α) → String → Option α
  | [], _ => none
  | (k', v) :: rest, k => if k' = k then some v else mapGet rest k

/-- Insert or replace, preserving insertion order (`Map.set` / `db.put`). -/
def mapSet {α : Type} : List (String × α) → String → α → List (String × α)
  | [], k, v => [(k, v)]
  | (k', v') :: rest, k, v =>
      if k' = k then (k, v) :: rest else (k', v') :: mapSet rest k v

/-- Update the value at a key if present, identity otherwise. This is the
shape of `DownloadManager.updateTask`, which silently ignores unknown ids. -/
def mapUpdate {α : Type} : List (String × α) → String → (α → α) → List (String × α)
  | [], _, _ => []
  | (k', v) :: rest, k, f =>
      if k' = k then (k', f v) :: rest else (k', v) :: mapUpdate rest k f

/-- Delete the entry at a key (`Map.delete` / `db.delete`). -/
def mapDelete {α : Type} : List (String × α) → String → List (String × α)
  | [], _ => []
  | (k', v) :: rest, k => if k' = k then rest else (k', v) :: mapDelete rest k

/-! The `audioCache` object store, keyed by the `lectureId` field of its
entries. A list models the store; lookup and upsert follow the key. -/

/-- `db.get('audioCache', lectureId)`. -/
def cacheGet : List CacheEntry → String → Option CacheEntry
  | [], _ => none
  | e :: rest, id => if e.lectureId = id then some e else cacheGet rest id

/-- `db.put('audioCache', entry)`: replace the entry with the same key in
place, or append. -/
def cachePut : List CacheEntry → CacheEntry → List CacheEntry
  | [], e => [e]
  | e' :: rest, e =>
      if e'.lectureId = e.lectureId then e :: rest else e' :: cachePut rest e

/-- `db.delete('audioCache', lectureId)`. -/
def cacheDelete : List CacheEntry → String → List CacheEntry
  | [], _ => []
  | e :: rest, id => if e.lectureId = id then rest else e :: cacheDelete rest id

/-- Total cached audio bytes: the `reduce` over `item.size` inside
`getStorageStats`. -/
def audioBytes (c : List CacheEntry) : Int :=
  c.foldl (fun total item => total + (item.size : Int)) 0

/-- `StorageManager.getStorageStats`: `quota` and `used` come from the host
environment (`navigator.storage.estimate()`), the rest is computed. -/
def getStorageStats (c : List CacheEntry) (quota used : Int) : StorageStats :=
  { used := used
    available := quota - used
    quota := quota
    usedPercentage := if quota > 0 then ((used : Rat) / (quota : Rat)) * 100 else 0
    audioBytes := audioBytes c
    cacheSize := used - audioBytes c }

/-- The comparator of `evictToFreeSpace`:
`(a, b) => a.lastAccessed - b.lastAccessed`, ascending by `lastAccessed`. -/
def lruOrder (a b : CacheEntry) : Prop :=
  a.lastAccessed ≤ b.lastAccessed

instance : DecidableRel lruOrder := fun a b => Nat.decLe a.lastAccessed b.lastAccessed

instance : IsTotal CacheEntry lruOrder :=
  ⟨fun a b => Nat.le_total a.lastAccessed b.lastAccessed⟩

instance : IsTrans CacheEntry lruOrder :=
  ⟨fun _ _ _ hab hbc => Nat.le_trans hab hbc⟩

/-- The `allCached.sort((a, b) => a.lastAccessed - b.lastAccessed)` step of
`evictToFreeSpace`: stable sort ascending by `lastAccessed` (oldest first,
ties keep store iteration order). -/
def sortByLastAccessed (c : List CacheEntry) : List CacheEntry :=
  List.insertionSort lruOrder c

/-- Cumulative byte size of a list of cache entries. -/
def sumSizes (c : List CacheEntry) : Int :=
  (c.map (fun e => (e.size : Int))).sum

/-- The accumulation loop of `evictToFreeSpace`: walk the sorted inventory,
stop as soon as the bytes freed so far reach the target, otherwise take the
entry and add its size. Returns the ids to delete and the freed byte count. -/
def evictSelect : List CacheEntry → Int → Int → List String × Int
  | [], _, freed => ([], freed)
  | e :: rest, target, freed =>
      if freed ≥ target then ([], freed)
      else
        let r := evictSelect rest target (freed + (e.size : Int))
        (e.lectureId :: r.1, r.2)

/-- `StorageManager.evictToFreeSpace(targetBytes)`: sort the inventory by
`lastAccessed` ascending, accumulate the oldest entries until the freed
bytes reach the target, batch-delete exactly those entries, and return the
ids deleted, the freed byte count, and the store after deletion. -/
def evictToFreeSpace (c : List CacheEntry) (targetBytes : Int) :
    List String × Int × List CacheEntry :=
  let sel := evictSelect (sortByLastAccessed c) targetBytes 0
  (sel.1, sel.2, sel.1.foldl cacheDelete c)

/-- `StorageManager.getCachedAudio(lectureId)` at time `now`: on a hit,
write back the entry with `lastAccessed := now` and return the blob; on a
miss return nothing and leave the store alone. Returns (result, store). -/
def getCachedAudioBlob (c : List CacheEntry) (id : String) (now : Nat) :
    Option (List Nat) × List CacheEntry :=
  match cacheGet c id with
  | some e => (some e.blob, cachePut c { e with lastAccessed := now })
  | none => (none, c)

/-- `StorageManager.cacheAudio(lectureId, blob)` at time `now`. -/
def cacheAudioPut (c : List CacheEntry) (id : String) (blob : List Nat)
    (now : Nat) : List CacheEntry :=
  cachePut c
    { lectureId := id, blob := blob, size := blob.length, cachedAt := now
      lastAccessed := now }

/-! The download queue manager (`download-manager.ts`). Its state is the
Svelte store contents plus the environment pieces it reads: the persisted
lecture records, the audio cache, and two lists that make the asynchronous
control flow explicit. `tokens` holds one entry per `startDownload`
invocation that is still suspended at its initial
`await storageManager.getLecture` — the docket of transfers that have been
scheduled by `processQueue` but have not yet marked their task
`downloading` or entered `activeDownloads`. `fetching` holds one entry per
transfer whose network fetch is in flight (an abort controller exists for
exactly these). All other operations are modelled atomically. -/

/-- `MAX_CONCURRENT_DOWNLOADS` from the source. -/
def MAX_CONCURRENT_DOWNLOADS : Int := 2

/-- `STORAGE_BUFFER_MB` from the source (headroom kept free, in MiB). -/
def STORAGE_BUFFER_MB : Int := 50

/-- `checkStorageAvailability` with the buffer left as a parameter; the
source hard-codes `STORAGE_BUFFER_MB = 50`, the spec treats the buffer as
configuration. -/
def checkStorageAvailabilityWith (bufferMB : Int) (stats : StorageStats)
    (requiredBytes : Int) : Bool :=
  stats.available > requiredBytes + bufferMB * 1024 * 1024

/-- `DownloadManager.checkStorageAvailability(requiredBytes)`:
`stats.available > requiredBytes + bufferBytes` with the 50 MiB buffer. -/
def checkStorageAvailability (stats : StorageStats) (requiredBytes : Int) : Bool :=
  checkStorageAvailabilityWith STORAGE_BUFFER_MB stats requiredBytes

/-- The download manager state. -/
structure MState where
  tasks : List (String × DownloadTask)
  activeDownloads : List String
  isPaused : Bool
  lectures : List (String × Lecture)
  cache : List CacheEntry
  tokens : List String
  fetching : List String
deriving DecidableEq, Repr

/-- Set-semantics add for `activeDownloads` (`Set.add`). -/
def activeAdd (l : List String) (id : String) : List String :=
  if id ∈ l then l else l ++ [id]

/-- The pending tasks in store iteration order, as filtered by
`processQueue`. -/
def pendingTasks (s : MState) : List DownloadTask :=
  (s.tasks.map Prod.snd).filter (fun t => t.status == Status.pending)

/-- Number of tasks whose status is `downloading` (the `downloadingCount`
derived store). -/
def downloadingCount (s : MState) : Nat :=
  ((s.tasks.map Prod.snd).filter (fun t => t.status == Status.downloading)).length

/-- The task ids `processQueue` passes to `startDownload`: nothing when the
queue is globally paused, no slot is free, or nothing is pending; otherwise
the first `maxConcurrent - activeCount` pending tasks. -/
def promoteSelection (s : MState) : List String :=
  if s.isPaused then []
  else
    let pending := pendingTasks s
    let slots : Int := MAX_CONCURRENT_DOWNLOADS - (s.activeDownloads.length : Int)
    if slots ≤ 0 ∨ pending = [] then []
    else (pending.take slots.toNat).map DownloadTask.lectureId

/-- `DownloadManager.processQueue`: issue one suspended `startDownload`
invocation (a token) per selected pending task. The selected tasks keep
status `pending` until their invocation resumes past `getLecture`. -/
def processQueue (s : MState) : MState :=
  { s with tokens := s.tokens ++ promoteSelection s }

/-- A fresh task as built by `queueDownload`. -/
def freshTask (lec : Lecture) : DownloadTask :=
  { lectureId := lec.id, status := .pending, progress := 0
    bytesDownloaded := 0, totalBytes := lec.fileSize }

/-- The part of `queueDownload` after the duplicate check: verify storage
headroom and either throw (state untouched) or insert a fresh pending task,
persist it, and trigger `processQueue`. There is no eviction attempt on
this path. -/
def queueDownloadFresh (s : MState) (stats : StorageStats) (lec : Lecture) :
    Except String MState :=
  if checkStorageAvailability stats (lec.fileSize : Int) then
    .ok (processQueue { s with tasks := mapSet s.tasks lec.id (freshTask lec) })
  else .error "Insufficient storage space. Please free up some space."

/-- `DownloadManager.queueDownload(lecture)`: return unchanged when a task
for the same id is already `completed` or `downloading`, otherwise run the
storage check and admission. -/
def queueDownload (s : MState) (stats : StorageStats) (lec : Lecture) :
    Except String MState :=
  match mapGet s.tasks lec.id with
  | some t =>
      if t.status = .completed ∨ t.status = .downloading then .ok s
      else queueDownloadFresh s stats lec
  | none => queueDownloadFresh s stats lec

/-- The body of `startDownload` once its `await getLecture` resumes: a
missing lecture fails the task and returns (no slot taken, no
`processQueue`); otherwise the task is marked `downloading`, the id joins
`activeDownloads`, and the fetch starts. -/
def startDownloadRun (s : MState) (id : String) (now : Nat) : MState :=
  match mapGet s.lectures id with
  | none =>
      { s with tasks := mapUpdate s.tasks id (fun t =>
          { t with status := .failed, error := some "Lecture not found" }) }
  | some _ =>
      { s with
        tasks := mapUpdate s.tasks id (fun t =>
          { t with status := .downloading, startedAt := some now })
        activeDownloads := activeAdd s.activeDownloads id
        fetching := s.fetching ++ [id] }

/-- `processQueue` with each selected `startDownload` run to its
registration point with no interleaving: the fully sequential reading of
one promotion pass. -/
def processQueueAtomic (s : MState) (now : Nat) : MState :=
  (promoteSelection s).foldl (fun st id => startDownloadRun st id now) s

/-- The progress callback `queueDownload` installs:
`progress = total > 0 ? (loaded / total) * 100 : 0` plus the byte
counters. -/
def progressUpdate (s : MState) (id : String) (loaded total : Nat) : MState :=
  { s with tasks := mapUpdate s.tasks id (fun t =>
      { t with
        progress := if total > 0 then ((loaded : Rat) / (total : Rat)) * 100 else 0
        bytesDownloaded := loaded, totalBytes := total }) }

/-- Completion path of `startDownload`: cache the blob, mark the lecture
downloaded, mark the task `completed` with `bytesDownloaded := blob.size`,
then the finally block releases the slot and re-runs `processQueue`. -/
def finishDownload (s : MState) (id : String) (blob : List Nat) (now : Nat) : MState :=
  processQueue
    { s with
      cache := cacheAudioPut s.cache id blob now
      lectures := mapUpdate s.lectures id (fun lec =>
        { lec with isDownloaded := true, downloadedAt := some now })
      tasks := mapUpdate s.tasks id (fun t =>
        { t with status := .completed, progress := 100
                 bytesDownloaded := blob.length, completedAt := some now })
      fetching := s.fetching.erase id
      activeDownloads := s.activeDownloads.erase id }

/-- Abort path of `startDownload` (the fetch threw `AbortError`): the task
becomes `paused` with `error = 'Download cancelled'`, no blob is cached,
and the finally block releases the slot and re-runs `processQueue`. -/
def abortDownload (s : MState) (id : String) : MState :=
  processQueue
    { s with
      tasks := mapUpdate s.tasks id (fun t =>
        { t with status := .paused, error := some "Download cancelled" })
      fetching := s.fetching.erase id
      activeDownloads := s.activeDownloads.erase id }

/-- Failure path of `startDownload` (any non-abort exception): the task
becomes `failed` with the error message, then the finally block. -/
def failDownload (s : MState) (id : String) (msg : String) : MState :=
  processQueue
    { s with
      tasks := mapUpdate s.tasks id (fun t =>
        { t with status := .failed, error := some msg })
      fetching := s.fetching.erase id
      activeDownloads := s.activeDownloads.erase id }

/-- `DownloadManager.pauseDownload`: abort the controller if one exists and
set the task `paused`. The abort lands later as a separate event. -/
def pauseDownload (s : MState) (id : String) : MState :=
  { s with tasks := mapUpdate s.tasks id (fun t => { t with status := .paused }) }

/-- `DownloadManager.resumeDownload`: set the task `pending` and re-run
`processQueue`. -/
def resumeDownload (s : MState) (id : String) : MState :=
  processQueue
    { s with tasks := mapUpdate s.tasks id (fun t => { t with status := .pending }) }

/-- `DownloadManager.retryDownload`: unconditionally reset the task to
`pending` with zero progress, zero bytes and no error, then re-run
`processQueue`. No status precondition is checked. -/
def retryDownload (s : MState) (id : String) : MState :=
  processQueue
    { s with tasks := mapUpdate s.tasks id (fun t =>
        { t with status := .pending, progress := 0, bytesDownloaded := 0
                 error := none }) }

/-- `DownloadManager.cancelDownload`: abort if active, remove the task, the
active slot, the cached blob, and reset the lecture flags. -/
def cancelDownload (s : MState) (id : String) : MState :=
  { s with
    tasks := mapDelete s.tasks id
    activeDownloads := s.activeDownloads.erase id
    cache := cacheDelete s.cache id
    lectures := mapUpdate s.lectures id (fun lec =>
      { lec with isDownloaded := false, downloadedAt := none }) }

/-- `DownloadManager.freeUpSpace(requiredBytes)`: when available space is
short, evict LRU blobs targeting the shortfall plus the buffer, then
garbage-collect every `completed` task whose blob is no longer cached. -/
def freeUpSpace (s : MState) (stats : StorageStats) (requiredBytes : Int) : MState :=
  if stats.available ≥ requiredBytes then s
  else
    let bytesToFree := requiredBytes - stats.available + STORAGE_BUFFER_MB * 1024 * 1024
    let ev := evictToFreeSpace s.cache bytesToFree
    let cachedIds := ev.2.2.map CacheEntry.lectureId
    { s with
      cache := ev.2.2
      tasks := s.tasks.filter (fun p =>
        !(p.2.status == Status.completed && !(cachedIds.contains p.1))) }

/-- `DownloadManager.pauseAll`: set the global pause flag and mark the task
of every live abort controller (every in-flight fetch) `paused`. -/
def pauseAll (s : MState) : MState :=
  { s with
    isPaused := true
    tasks := s.fetching.foldl (fun m id =>
      mapUpdate m id (fun t => { t with status := .paused })) s.tasks }

/-- The loop inside `resumeAll`: every `paused` task goes back to
`pending`. -/
def resumeAllTasks (m : List (String × DownloadTask)) : List (String × DownloadTask) :=
  (m.map Prod.fst).foldl (fun acc id =>
    mapUpdate acc id (fun t =>
      if t.status == Status.paused then { t with status := Status.pending } else t)) m

/-- `DownloadManager.resumeAll`: clear the global pause flag, reset paused
tasks to pending, re-run `processQueue`. -/
def resumeAll (s : MState) : MState :=
  processQueue { s with isPaused := false, tasks := resumeAllTasks s.tasks }

/-- `DownloadManager.clearAll`: abort everything, reset the store to its
initial value and clear the audio cache. Suspended invocations and
in-flight fetches survive until their own continuations run. -/
def clearAll (s : MState) : MState :=
  { s with tasks := [], activeDownloads := [], isPaused := false, cache := [] }

/-- The events of the download subsystem: each public operation, plus the
resumption points of the asynchronous transfer bodies (`fire` resumes a
suspended `startDownload` past `getLecture`; `progressEv`, `finish`,
`abortObserved` and `failObserved` are callbacks of an in-flight fetch). -/
inductive Act where
  | queue (lec : Lecture) (stats : StorageStats)
  | pause (id : String)
  | resume (id : String)
  | retry (id : String)
  | fire (id : String) (now : Nat)
  | progressEv (id : String) (loaded total : Nat)
  | finish (id : String) (blob : List Nat) (now : Nat)
  | abortObserved (id : String)
  | failObserved (id : String) (msg : String)
  | cancel (id : String)
  | evictFree (stats : StorageStats) (requiredBytes : Int)
  | pauseAllAct
  | resumeAllAct
  | clearAllAct
deriving Repr

/-- One step of the subsystem. A thrown `queueDownload` leaves the state
unchanged; transfer continuations are guarded by the matching docket. -/
def applyAct (s : MState) (a : Act) : MState :=
  match a with
  | .queue lec stats =>
      match queueDownload s stats lec with
      | .ok s' => s'
      | .error _ => s
  | .pause id => pauseDownload s id
  | .resume id => resumeDownload s id
  | .retry id => retryDownload s id
  | .fire id now =>
      if id ∈ s.tokens then startDownloadRun { s with tokens := s.tokens.erase id } id now
      else s
  | .progressEv id loaded total =>
      if id ∈ s.fetching then progressUpdate s id loaded total else s
  | .finish id blob now => if id ∈ s.fetching then finishDownload s id blob now else s
  | .abortObserved id => if id ∈ s.fetching then abortDownload s id else s
  | .failObserved id msg => if id ∈ s.fetching then failDownload s id msg else s
  | .cancel id => cancelDownload s id
  | .evictFree stats req => freeUpSpace s stats req
  | .pauseAllAct => pauseAll s
  | .resumeAllAct => resumeAll s
  | .clearAllAct => clearAll s

/-- Startup state over a given persisted lecture table. -/
def initState (lects : List (String × Lecture)) : MState :=
  { tasks := [], activeDownloads := [], isPaused := false, lectures := lects
    cache := [], tokens := [], fetching := [] }

/-- Run a list of steps. -/
def runActs (s : MState) (acts : List Act) : MState :=
  acts.foldl applyAct s

/-- States reachable from startup under any interleaving of events. -/
inductive Reachable (lects : List (String × Lecture)) : MState → Prop where
  | init : Reachable lects (initState lects)
  | step (s : MState) (a : Act) : Reachable lects s → Reachable lects (applyAct s a)

/-- The per-task reset in `loadExistingTasks`: interrupted downloads go
back to `pending` with zero progress, all other statuses load unchanged. -/
def loadTask (t : DownloadTask) : DownloadTask :=
  if t.status = .downloading then { t with status := .pending, progress := 0 }
  else t

/-- `DownloadManager.loadExistingTasks`: rebuild the task map from the
persisted records, resetting interrupted downloads. -/
def loadExistingTasks (persisted : List DownloadTask) : List (String × DownloadTask) :=
  persisted.foldl (fun m t => mapSet m t.lectureId (loadTask t)) []

/-! The transfer loop of `archiveFetcher.fetchAudioWithProgress` together
with the manager callbacks it drives, for a single task in isolation: the
server stream is a chunk list plus the advertised content-length. -/

/-- The manager progress callback applied to a task. -/
def applyProgress (t : DownloadTask) (loaded total : Nat) : DownloadTask :=
  { t with
    progress := if total > 0 then ((loaded : Rat) / (total : Rat)) * 100 else 0
    bytesDownloaded := loaded, totalBytes := total }

/-- Running totals of `loaded` after each chunk of the fetch loop. -/
def prefixSums : List Nat → Nat → List Nat
  | [], _ => []
  | c :: rest, acc => (acc + c) :: prefixSums rest (acc + c)

/-- The `loaded` values at which `onProgress` fires: once per chunk, and
only when the advertised total is positive. -/
def fetchEvents (chunks : List (List Nat)) (total : Nat) : List Nat :=
  if total > 0 then prefixSums (chunks.map List.length) 0 else []

/-- Fold the progress callback over the events of a transfer. -/
def runProgress (t : DownloadTask) (events : List Nat) (total : Nat) : DownloadTask :=
  events.foldl (fun acc l => applyProgress acc l total) t

/-- The completion update of `startDownload`: `completed`, 100 percent,
`bytesDownloaded := blob.size`. `totalBytes` is not touched here. -/
def completeTask (t : DownloadTask) (blobLen now : Nat) : DownloadTask :=
  { t with status := .completed, progress := 100, bytesDownloaded := blobLen
           completedAt := some now }

/-- A whole successful transfer for one task: all progress events, then the
completion update with the size of the assembled blob. -/
def runTransfer (t : DownloadTask) (chunks : List (List Nat)) (total now : Nat) :
    DownloadTask :=
  completeTask (runProgress t (fetchEvents chunks total) total) chunks.flatten.length now

/-- The task update performed when a promoted transfer registers. -/
def markDownloading (now : Nat) (t : DownloadTask) : DownloadTask :=
  { t with status := .downloading, startedAt := some now }

/-! Concrete inputs used to settle the claims. -/

/-- One mebibyte, the unit both the source (`1024 * 1024`) and the spec
examples use. -/
def MB : Int := 1048576

/-- One mebibyte as a byte count. -/
def MBn : Nat := 1048576

/-- Eviction example, oldest entry: 10 MB, least recently accessed. -/
def eA : CacheEntry :=
  { lectureId := "A", blob := [], size := 10, cachedAt := 0, lastAccessed := 1 }

/-- Eviction example, middle entry: 20 MB. -/
def eB : CacheEntry :=
  { lectureId := "B", blob := [], size := 20, cachedAt := 0, lastAccessed := 2 }

/-- Eviction example, newest entry: 30 MB, most recently accessed. -/
def eC : CacheEntry :=
  { lectureId := "C", blob := [], size := 30, cachedAt := 0, lastAccessed := 3 }

/-- A cache inventory holding one large, long-unused blob: an eviction
candidate worth 200 MB. -/
def cacheBig : List CacheEntry :=
  [{ lectureId := "OLD", blob := [], size := 200 * MBn, cachedAt := 0
     lastAccessed := 0 }]

/-- Storage statistics with quota 100 MB and 90 MB used: 10 MB available. -/
def stats90 : StorageStats := getStorageStats cacheBig (100 * MB) (90 * MB)

/-- Storage statistics with ample room. -/
def statsBig : StorageStats :=
  { used := 0, available := 1000000000, quota := 1000000000
    usedPercentage := 0, audioBytes := 0, cacheSize := 0 }

/-- A 5 MB item to enqueue. -/
def lecX5 : Lecture := { id := "X", fileSize := 5 * MBn }

/-- Small lectures used in the concurrency race. -/
def lecA : Lecture := { id := "A", fileSize := 1000 }

/-- Small lectures used in the concurrency race. -/
def lecB : Lecture := { id := "B", fileSize := 1000 }

/-- Small lectures used in the concurrency race. -/
def lecC : Lecture := { id := "C", fileSize := 1000 }

/-- Persisted lecture table for the concurrency race. -/
def lects0 : List (String × Lecture) := [("A", lecA), ("B", lecB), ("C", lecC)]

/-- The interleaving that overruns the concurrency cap: queue A and B (each
`startDownload` suspends at `await getLecture` before registering), pause
both while they are still unregistered, queue C (whose promotion pass sees
zero active downloads), then let all three suspended invocations resume. -/
def acts0 : List Act :=
  [.queue lecA statsBig, .queue lecB statsBig, .pause "A", .pause "B"
   , .queue lecC statsBig, .fire "A" 5, .fire "B" 6, .fire "C" 7]

/-- The state the race reaches: three tasks simultaneously `downloading`. -/
def raceState : MState := runActs (initState lects0) acts0

/-- A task currently `downloading` with an in-flight fetch. -/
def taskXdl : DownloadTask :=
  { lectureId := "X", status := .downloading, progress := 0
    bytesDownloaded := 0, totalBytes := 100, startedAt := some 1 }

/-- A pending task queued behind it. -/
def taskYpending : DownloadTask :=
  { lectureId := "Y", status := .pending, progress := 0
    bytesDownloaded := 0, totalBytes := 200 }

/-- A state with one active transfer (X) and one pending task (Y). -/
def s3 : MState :=
  { tasks := [("X", taskXdl), ("Y", taskYpending)]
    activeDownloads := ["X"], isPaused := false
    lectures := [("X", { id := "X", fileSize := 100 }), ("Y", { id := "Y", fileSize := 200 })]
    cache := [], tokens := [], fetching := ["X"] }

/-- A paused task for X. -/
def taskXpaused : DownloadTask :=
  { lectureId := "X", status := .paused, progress := 0
    bytesDownloaded := 0, totalBytes := 5 * MBn }

/-- A state holding only a paused task for X. -/
def sPausedX : MState :=
  { tasks := [("X", taskXpaused)]
    activeDownloads := [], isPaused := false
    lectures := [("X", lecX5)], cache := [], tokens := [], fetching := [] }

/-- Storage statistics that fail the admission check for a 5 MB item. -/
def statsLow : StorageStats := getStorageStats [] (100 * MB) (90 * MB)

/-- Lecture table for the dishonest-stream run. -/
def lectsX : List (String × Lecture) := [("X", { id := "X", fileSize := 100 })]

/-- A run in which the server advertises a content-length of 100 bytes but
delivers 150: queue X, let the transfer register, observe one progress
event, and complete. -/
def acts7 : List Act :=
  [.queue { id := "X", fileSize := 100 } statsBig, .fire "X" 1
   , .progressEv "X" 150 100, .finish "X" (List.replicate 150 0) 2]

/-- The state that run reaches. -/
def badState : MState := runActs (initState lectsX) acts7

/-- A fresh task whose declared size is 100 bytes. -/
def tX : DownloadTask :=
  { lectureId := "X", status := .pending, progress := 0
    bytesDownloaded := 0, totalBytes := 100 }

/-- A state whose cache holds the large evictable blob. -/
def sBig : MState :=
  { tasks := [], activeDownloads := [], isPaused := false
    lectures := [("X", lecX5)], cache := cacheBig, tokens := [], fetching := [] }

/-- A completed task for Z. -/
def taskZdone : DownloadTask :=
  { lectureId := "Z", status := .completed, progress := 100
    bytesDownloaded := 100, totalBytes := 100, completedAt := some 5 }

/-- A lecture record for Z. -/
def lecZ : Lecture := { id := "Z", fileSize := 100 }

/-- A state holding only the completed task for Z. -/
def sDoneZ : MState :=
  { tasks := [("Z", taskZdone)], activeDownloads := [], isPaused := false
    lectures := [("Z", lecZ)], cache := [], tokens := [], fetching := [] }

/-- The well-formedness invariant of the task store: keys are unique and
every task record carries its own key. -/
def TasksWF (tasks : List (String × DownloadTask)) : Prop :=
  (tasks.map Prod.fst).Nodup ∧ ∀ p ∈ tasks, p.2.lectureId = p.1

/-- Every completed task has a cached blob under its id. -/
def CompletedCached (tasks : List (String × DownloadTask)) (cache : List CacheEntry) : Prop :=
  ∀ p ∈ tasks, p.2.status = .completed → (cacheGet cache p.1).isSome

/-- The state invariant of the download manager. -/
def Inv (s : MState) : Prop :=
  TasksWF s.tasks ∧ CompletedCached s.tasks s.cache

/-! Lemmas about the association-list map operations. -/

theorem mapGet_cons {α : Type} (q : String × α) (rest : List (String × α)) (k : String) :
    mapGet (q :: rest) k = if q.1 = k then some q.2 else mapGet rest k := by
  cases q
  rfl

theorem mapSet_cons {α : Type} (q : String × α) (rest : List (String × α)) (k : String)
    (v : α) :
    mapSet (q :: rest) k v = if q.1 = k then (k, v) :: rest else q :: mapSet rest k v := by
  cases q
  rfl

theorem mapUpdate_cons {α : Type} (q : String × α) (rest : List (String × α)) (k : String)
    (f : α → α) :
    mapUpdate (q :: rest) k f =
      if q.1 = k then (q.1, f q.2) :: rest else q :: mapUpdate rest k f := by
  cases q
  rfl

theorem mapDelete_cons {α : Type} (q : String × α) (rest : List (String × α)) (k : String) :
    mapDelete (q :: rest) k = if q.1 = k then rest else q :: mapDelete rest k := by
  cases q
  rfl

theorem mapGet_mapSet_self {α : Type} (m : List (String × α)) (k : String) (v : α) :
    mapGet (mapSet m k v) k = some v := by
  induction m with
  | nil => simp [mapSet, mapGet]
  | cons p rest ih =>
      by_cases h : p.1 = k
      · simp [mapSet, h, mapGet]
      · simp [mapSet, h, mapGet, ih]

theorem mapGet_mapSet_ne {α : Type} (m : List (String × α)) (k k' : String) (v : α)
    (h : k' ≠ k) : mapGet (mapSet m k v) k' = mapGet m k' := by
  have hkk : ¬ k = k' := fun h' => h h'.symm
  induction m with
  | nil => simp [mapSet, mapGet, hkk]
  | cons p rest ih =>
      by_cases hp : p.1 = k
      · have hp' : ¬ p.1 = k' := by rw [hp]; exact hkk
        simp [mapSet, hp, mapGet, hkk, hp']
      · by_cases hp' : p.1 = k'
        · simp [mapSet, hp, mapGet, hp', h]
        · simp [mapSet, hp, mapGet, hp', ih]

theorem mapGet_mapUpdate_self {α : Type} (m : List (String × α)) (k : String)
    (f : α → α) : mapGet (mapUpdate m k f) k = (mapGet m k).map f := by
  induction m with
  | nil => simp [mapUpdate, mapGet]
  | cons p rest ih =>
      by_cases h : p.1 = k
      · simp [mapUpdate, h, mapGet]
      · simp [mapUpdate, h, mapGet, ih]

theorem mapGet_mapUpdate_ne {α : Type} (m : List (String × α)) (k k' : String)
    (f : α → α) (h : k' ≠ k) : mapGet (mapUpdate m k f) k' = mapGet m k' := by
  have hkk : ¬ k = k' := fun h' => h h'.symm
  induction m with
  | nil => simp [mapUpdate, mapGet]
  | cons p rest ih =>
      by_cases hp : p.1 = k
      · simp [mapUpdate, hp, mapGet, hkk]
      · by_cases hp' : p.1 = k'
        · simp [mapUpdate, hp, mapGet, hp', h]
        · simp [mapUpdate, hp, mapGet, hp', ih]

theorem keys_mapUpdate {α : Type} (m : List (String × α)) (k : String) (f : α → α) :
    (mapUpdate m k f).map Prod.fst = m.map Prod.fst := by
  induction m with
  | nil => simp [mapUpdate]
  | cons p rest ih =>
      by_cases h : p.1 = k
      · simp [mapUpdate, h]
      · simp [mapUpdate, h, ih]

theorem mem_mapUpdate {α : Type} {m : List (String × α)} {k : String} {f : α → α}
    {p : String × α} (hp : p ∈ mapUpdate m k f) :
    p ∈ m ∨ ∃ v, (k, v) ∈ m ∧ p = (k, f v) := by
  induction m with
  | nil => simp [mapUpdate] at hp
  | cons q rest ih =>
      by_cases h : q.1 = k
      · simp only [mapUpdate, h, if_pos rfl] at hp
        rcases List.mem_cons.mp hp with h1 | h1
        · right
          exact ⟨q.2, by simp [← h, h1], by simp [h1, h]⟩
        · exact Or.inl (List.mem_cons_of_mem _ h1)
      · simp only [mapUpdate, h, if_neg h] at hp
        rcases List.mem_cons.mp hp with h1 | h1
        · exact Or.inl (h1 ▸ List.mem_cons_self _ _)
        · rcases ih h1 with h2 | ⟨v, hv, hpv⟩
          · exact Or.inl (List.mem_cons_of_mem _ h2)
          · exact Or.inr ⟨v, List.mem_cons_of_mem _ hv, hpv⟩

theorem mem_mapSet {α : Type} {m : List (String × α)} {k : String} {v : α}
    {p : String × α} (hp : p ∈ mapSet m k v) : p = (k, v) ∨ p ∈ m := by
  induction m with
  | nil => simp [mapSet] at hp; exact Or.inl hp
  | cons q rest ih =>
      by_cases h : q.1 = k
      · simp only [mapSet, h, if_pos rfl] at hp
        rcases List.mem_cons.mp hp with h1 | h1
        · exact Or.inl h1
        · exact Or.inr (List.mem_cons_of_mem _ h1)
      · simp only [mapSet, h, if_neg h] at hp
        rcases List.mem_cons.mp hp with h1 | h1
        · exact Or.inr (h1 ▸ List.mem_cons_self _ _)
        · rcases ih h1 with h2 | h2
          · exact Or.inl h2
          · exact Or.inr (List.mem_cons_of_mem _ h2)

theorem nodup_keys_mapSet {α : Type} (m : List (String × α)) (k : String) (v : α)
    (h : (m.map Prod.fst).Nodup) : ((mapSet m k v).map Prod.fst).Nodup := by
  induction m with
  | nil => simp [mapSet]
  | cons q rest ih =>
      rw [List.map_cons, List.nodup_cons] at h
      rw [mapSet_cons]
      by_cases hq : q.1 = k
      · rw [if_pos hq, List.map_cons, List.nodup_cons]
        exact ⟨hq ▸ h.1, h.2⟩
      · rw [if_neg hq, List.map_cons, List.nodup_cons]
        refine ⟨?_, ih h.2⟩
        intro hmem
        rcases List.mem_map.mp hmem with ⟨p, hp, hfst⟩
        rcases mem_mapSet hp with h1 | h1
        · exact hq (by rw [← hfst, h1])
        · exact h.1 (List.mem_map.mpr ⟨p, h1, hfst⟩)

theorem keys_mapDelete_sublist {α : Type} (m : List (String × α)) (k : String) :
    List.Sublist ((mapDelete m k).map Prod.fst) (m.map Prod.fst) := by
  induction m with
  | nil => simp [mapDelete]
  | cons q rest ih =>
      rw [mapDelete_cons]
      by_cases h : q.1 = k
      · rw [if_pos h, List.map_cons]
        exact List.Sublist.cons _ (List.Sublist.refl _)
      · rw [if_neg h, List.map_cons, List.map_cons]
        exact List.Sublist.cons₂ _ ih

theorem mem_mapDelete_of_nodup {α : Type} {m : List (String × α)} {k : String}
    {p : String × α} (hn : (m.map Prod.fst).Nodup) (hp : p ∈ mapDelete m k) :
    p ∈ m ∧ p.1 ≠ k := by
  induction m with
  | nil => simp [mapDelete] at hp
  | cons q rest ih =>
      simp only [List.map_cons, List.nodup_cons] at hn
      by_cases h : q.1 = k
      · simp only [mapDelete, h, if_pos rfl] at hp
        refine ⟨List.mem_cons_of_mem _ hp, ?_⟩
        intro hk
        exact hn.1 (h ▸ hk ▸ List.mem_map.mpr ⟨p, hp, rfl⟩)
      · simp only [mapDelete, h, if_neg h] at hp
        rcases List.mem_cons.mp hp with h1 | h1
        · exact ⟨h1 ▸ List.mem_cons_self _ _, h1 ▸ h⟩
        · rcases ih hn.2 h1 with ⟨h2, h3⟩
          exact ⟨List.mem_cons_of_mem _ h2, h3⟩

theorem mapGet_isSome_iff {α : Type} (m : List (String × α)) (k : String) :
    (mapGet m k).isSome ↔ k ∈ m.map Prod.fst := by
  induction m with
  | nil => simp [mapGet]
  | cons q rest ih =>
      by_cases h : q.1 = k
      · simp [mapGet, h]
      · have hk : ¬ k = q.1 := fun hk => h hk.symm
        simp [mapGet, h, ih, hk]

theorem mapGet_of_mem_nodup {α : Type} {m : List (String × α)} {k : String} {v : α}
    (hn : (m.map Prod.fst).Nodup) (hm : (k, v) ∈ m) : mapGet m k = some v := by
  induction m with
  | nil => simp at hm
  | cons q rest ih =>
      simp only [List.map_cons, List.nodup_cons] at hn
      rcases List.mem_cons.mp hm with h1 | h1
      · simp [mapGet, ← h1]
      · have hk : q.1 ≠ k := by
          intro hq
          exact hn.1 (hq ▸ List.mem_map.mpr ⟨(k, v), h1, rfl⟩)
        simp [mapGet, hk, ih hn.2 h1]

theorem mapUpdate_eq_map {α : Type} {m : List (String × α)} {k : String}
    (f : α → α) (hn : (m.map Prod.fst).Nodup) :
    mapUpdate m k f = m.map (fun p => if p.1 = k then (p.1, f p.2) else p) := by
  induction m with
  | nil => simp [mapUpdate]
  | cons q rest ih =>
      simp only [List.map_cons, List.nodup_cons] at hn
      by_cases h : q.1 = k
      · have hrest : rest.map (fun p => if p.1 = k then (p.1, f p.2) else p) = rest := by
          have hcongr :
              rest.map (fun p => if p.1 = k then (p.1, f p.2) else p) = rest.map id := by
            apply List.map_congr_left
            intro p hp
            have hpk : ¬ p.1 = k := by
              intro hk
              exact hn.1 (h ▸ hk ▸ List.mem_map.mpr ⟨p, hp, rfl⟩)
            simp [hpk]
          simpa using hcongr
        simp [mapUpdate, h, hrest]
      · simp [mapUpdate, h, ih hn.2]

/-! Lemmas about the audio cache store. -/

theorem cacheGet_key {c : List CacheEntry} {id : String} {e : CacheEntry}
    (h : cacheGet c id = some e) : e.lectureId = id := by
  induction c with
  | nil => simp [cacheGet] at h
  | cons x rest ih =>
      by_cases hx : x.lectureId = id
      · simp only [cacheGet, if_pos hx] at h
        rw [← Option.some.inj h]
        exact hx
      · simp only [cacheGet, if_neg hx] at h
        exact ih h

theorem cacheGet_cachePut_self (c : List CacheEntry) (e : CacheEntry) :
    cacheGet (cachePut c e) e.lectureId = some e := by
  induction c with
  | nil => simp [cachePut, cacheGet]
  | cons x rest ih =>
      by_cases hx : x.lectureId = e.lectureId
      · simp [cachePut, hx, cacheGet]
      · simp [cachePut, hx, cacheGet, ih]

theorem cacheGet_cachePut_ne (c : List CacheEntry) (e : CacheEntry) (id : String)
    (h : id ≠ e.lectureId) : cacheGet (cachePut c e) id = cacheGet c id := by
  have he : ¬ e.lectureId = id := fun h' => h h'.symm
  induction c with
  | nil => simp [cachePut, cacheGet, he]
  | cons x rest ih =>
      by_cases hx : x.lectureId = e.lectureId
      · have hx' : ¬ x.lectureId = id := by rw [hx]; exact he
        simp [cachePut, hx, cacheGet, he, hx']
      · by_cases hx' : x.lectureId = id
        · simp [cachePut, hx, cacheGet, hx', h]
        · simp [cachePut, hx, cacheGet, hx', ih]

theorem cachePut_isSome (c : List CacheEntry) (e : CacheEntry) (id : String)
    (h : (cacheGet c id).isSome) : (cacheGet (cachePut c e) id).isSome := by
  by_cases hid : id = e.lectureId
  · rw [hid, cacheGet_cachePut_self]; rfl
  · rwa [cacheGet_cachePut_ne c e id hid]

theorem cacheGet_cacheDelete_ne (c : List CacheEntry) (id i : String)
    (h : i ≠ id) : cacheGet (cacheDelete c id) i = cacheGet c i := by
  have hii : ¬ id = i := fun h' => h h'.symm
  induction c with
  | nil => simp [cacheDelete, cacheGet]
  | cons x rest ih =>
      by_cases hx : x.lectureId = id
      · simp [cacheDelete, hx, cacheGet, hii]
      · by_cases hx' : x.lectureId = i
        · simp [cacheDelete, hx, cacheGet, hx', h]
        · simp [cacheDelete, hx, cacheGet, hx', ih]

theorem cacheGet_of_mem_keys {c : List CacheEntry} {id : String}
    (h : id ∈ c.map CacheEntry.lectureId) : (cacheGet c id).isSome := by
  induction c with
  | nil => simp at h
  | cons x rest ih =>
      by_cases hx : x.lectureId = id
      · simp [cacheGet, hx]
      · rw [List.map_cons, List.mem_cons] at h
        rcases h with h1 | h1
        · exact absurd h1.symm hx
        · simp only [cacheGet, if_neg hx]
          exact ih h1

/-! Preservation of the state invariant by each operation. -/

theorem tasksWF_mapUpdate {m : List (String × DownloadTask)} {id : String}
    {f : DownloadTask → DownloadTask}
    (hf : ∀ t, (f t).lectureId = t.lectureId) (h : TasksWF m) :
    TasksWF (mapUpdate m id f) := by
  refine ⟨by rw [keys_mapUpdate]; exact h.1, ?_⟩
  intro p hp
  rcases mem_mapUpdate hp with h1 | ⟨v, hv, hpv⟩
  · exact h.2 p h1
  · rw [hpv]
    show (f v).lectureId = id
    rw [hf v]
    exact h.2 (id, v) hv

theorem completedCached_mapUpdate {m : List (String × DownloadTask)}
    {cache cache' : List CacheEntry} {id : String} {f : DownloadTask → DownloadTask}
    (hc : ∀ i, (cacheGet cache i).isSome → (cacheGet cache' i).isSome)
    (hcase : (∀ t, (f t).status = .completed → t.status = .completed) ∨
      (cacheGet cache' id).isSome)
    (h : CompletedCached m cache) : CompletedCached (mapUpdate m id f) cache' := by
  intro p hp hst
  rcases mem_mapUpdate hp with h1 | ⟨v, hv, hpv⟩
  · exact hc _ (h p h1 hst)
  · rcases hcase with hl | hr
    · rw [hpv] at hst
      rw [hpv]
      exact hc _ (h (id, v) hv (hl v hst))
    · rw [hpv]
      exact hr

theorem tasksWF_mapSet_fresh {m : List (String × DownloadTask)} (lec : Lecture)
    (h : TasksWF m) : TasksWF (mapSet m lec.id (freshTask lec)) := by
  refine ⟨nodup_keys_mapSet _ _ _ h.1, ?_⟩
  intro p hp
  rcases mem_mapSet hp with h1 | h1
  · rw [h1]
    rfl
  · exact h.2 p h1

theorem completedCached_mapSet_fresh {m : List (String × DownloadTask)}
    {cache : List CacheEntry} (lec : Lecture) (h : CompletedCached m cache) :
    CompletedCached (mapSet m lec.id (freshTask lec)) cache := by
  intro p hp hst
  rcases mem_mapSet hp with h1 | h1
  · rw [h1] at hst
    exact Status.noConfusion hst
  · exact h p h1 hst

theorem inv_foldUpdate (ids : List String) (m : List (String × DownloadTask))
    (cache : List CacheEntry) (f : DownloadTask → DownloadTask)
    (hf : ∀ t, (f t).lectureId = t.lectureId)
    (hfs : ∀ t, (f t).status = .completed → t.status = .completed)
    (h1 : TasksWF m) (h2 : CompletedCached m cache) :
    TasksWF (ids.foldl (fun acc id => mapUpdate acc id f) m) ∧
      CompletedCached (ids.foldl (fun acc id => mapUpdate acc id f) m) cache := by
  induction ids generalizing m with
  | nil => exact ⟨h1, h2⟩
  | cons i rest ih =>
      exact ih (mapUpdate m i f) (tasksWF_mapUpdate hf h1)
        (completedCached_mapUpdate (fun _ hh => hh) (Or.inl hfs) h2)

theorem queueDownload_cases (s : MState) (stats : StorageStats) (lec : Lecture) :
    queueDownload s stats lec = .ok s ∨
    queueDownload s stats lec =
      .ok (processQueue { s with tasks := mapSet s.tasks lec.id (freshTask lec) }) ∨
    queueDownload s stats lec =
      .error "Insufficient storage space. Please free up some space." := by
  unfold queueDownload queueDownloadFresh
  rcases mapGet s.tasks lec.id with _ | t
  · by_cases hc : checkStorageAvailability stats (lec.fileSize : Int)
    · simp [hc]
    · simp [hc]
  · by_cases hst : t.status = .completed ∨ t.status = .downloading
    · simp [hst]
    · by_cases hc : checkStorageAvailability stats (lec.fileSize : Int)
      · simp [hst, hc]
      · simp [hst, hc]

theorem inv_step (s : MState) (a : Act) (h : Inv s) : Inv (applyAct s a) := by
  obtain ⟨hWF, hCC⟩ := h
  cases a with
  | queue lec stats =>
      show Inv (match queueDownload s stats lec with | .ok s' => s' | .error _ => s)
      rcases queueDownload_cases s stats lec with hq | hq | hq
      · rw [hq]
        exact ⟨hWF, hCC⟩
      · rw [hq]
        exact ⟨tasksWF_mapSet_fresh lec hWF, completedCached_mapSet_fresh lec hCC⟩
      · rw [hq]
        exact ⟨hWF, hCC⟩
  | pause id =>
      exact ⟨tasksWF_mapUpdate (fun t => rfl) hWF,
        completedCached_mapUpdate (fun _ hh => hh)
          (Or.inl (fun t ht => Status.noConfusion ht)) hCC⟩
  | resume id =>
      exact ⟨tasksWF_mapUpdate (fun t => rfl) hWF,
        completedCached_mapUpdate (fun _ hh => hh)
          (Or.inl (fun t ht => Status.noConfusion ht)) hCC⟩
  | retry id =>
      exact ⟨tasksWF_mapUpdate (fun t => rfl) hWF,
        completedCached_mapUpdate (fun _ hh => hh)
          (Or.inl (fun t ht => Status.noConfusion ht)) hCC⟩
  | fire id now =>
      show Inv (if id ∈ s.tokens then
        startDownloadRun { s with tokens := s.tokens.erase id } id now else s)
      by_cases htok : id ∈ s.tokens
      · rw [if_pos htok]
        unfold startDownloadRun
        rcases mapGet s.lectures id with _ | lec
        · exact ⟨tasksWF_mapUpdate (fun t => rfl) hWF,
            completedCached_mapUpdate (fun _ hh => hh)
              (Or.inl (fun t ht => Status.noConfusion ht)) hCC⟩
        · exact ⟨tasksWF_mapUpdate (fun t => rfl) hWF,
            completedCached_mapUpdate (fun _ hh => hh)
              (Or.inl (fun t ht => Status.noConfusion ht)) hCC⟩
      · rw [if_neg htok]
        exact ⟨hWF, hCC⟩
  | progressEv id loaded total =>
      show Inv (if id ∈ s.fetching then progressUpdate s id loaded total else s)
      by_cases hf : id ∈ s.fetching
      · rw [if_pos hf]
        exact ⟨tasksWF_mapUpdate (fun t => rfl) hWF,
          completedCached_mapUpdate (fun _ hh => hh)
            (Or.inl (fun t ht => ht)) hCC⟩
      · rw [if_neg hf]
        exact ⟨hWF, hCC⟩
  | finish id blob now =>
      show Inv (if id ∈ s.fetching then finishDownload s id blob now else s)
      by_cases hf : id ∈ s.fetching
      · rw [if_pos hf]
        refine ⟨tasksWF_mapUpdate (fun t => rfl) hWF, ?_⟩
        refine completedCached_mapUpdate (fun i hh => cachePut_isSome _ _ _ hh)
          (Or.inr ?_) hCC
        have hself : cacheGet (cacheAudioPut s.cache id blob now) id =
            some { lectureId := id, blob := blob, size := blob.length, cachedAt := now
                   lastAccessed := now } :=
          cacheGet_cachePut_self s.cache
            { lectureId := id, blob := blob, size := blob.length, cachedAt := now
              lastAccessed := now }
        show (cacheGet (cacheAudioPut s.cache id blob now) id).isSome
        rw [hself]
        rfl
      · rw [if_neg hf]
        exact ⟨hWF, hCC⟩
  | abortObserved id =>
      show Inv (if id ∈ s.fetching then abortDownload s id else s)
      by_cases hf : id ∈ s.fetching
      · rw [if_pos hf]
        exact ⟨tasksWF_mapUpdate (fun t => rfl) hWF,
          completedCached_mapUpdate (fun _ hh => hh)
            (Or.inl (fun t ht => Status.noConfusion ht)) hCC⟩
      · rw [if_neg hf]
        exact ⟨hWF, hCC⟩
  | failObserved id msg =>
      show Inv (if id ∈ s.fetching then failDownload s id msg else s)
      by_cases hf : id ∈ s.fetching
      · rw [if_pos hf]
        exact ⟨tasksWF_mapUpdate (fun t => rfl) hWF,
          completedCached_mapUpdate (fun _ hh => hh)
            (Or.inl (fun t ht => Status.noConfusion ht)) hCC⟩
      · rw [if_neg hf]
        exact ⟨hWF, hCC⟩
  | cancel id =>
      refine ⟨⟨(keys_mapDelete_sublist s.tasks id).nodup hWF.1, ?_⟩, ?_⟩
      · intro p hp
        exact hWF.2 p (mem_mapDelete_of_nodup hWF.1 hp).1
      · intro p hp hst
        obtain ⟨hpm, hpk⟩ := mem_mapDelete_of_nodup hWF.1 hp
        show (cacheGet (cacheDelete s.cache id) p.1).isSome = true
        rw [cacheGet_cacheDelete_ne s.cache id p.1 hpk]
        exact hCC p hpm hst
  | evictFree stats req =>
      show Inv (freeUpSpace s stats req)
      unfold freeUpSpace
      by_cases hav : stats.available ≥ req
      · rw [if_pos hav]
        exact ⟨hWF, hCC⟩
      · rw [if_neg hav]
        refine ⟨⟨?_, ?_⟩, ?_⟩
        · exact ((List.filter_sublist s.tasks).map Prod.fst).nodup hWF.1
        · intro p hp
          exact hWF.2 p (List.mem_of_mem_filter hp)
        · intro p hp hst
          have hpf := List.of_mem_filter hp
          apply cacheGet_of_mem_keys
          simp only [hst] at hpf
          simpa using hpf
  | pauseAllAct =>
      exact inv_foldUpdate s.fetching s.tasks s.cache _ (fun t => rfl)
        (fun t ht => Status.noConfusion ht) hWF hCC
  | resumeAllAct =>
      refine inv_foldUpdate (s.tasks.map Prod.fst) s.tasks s.cache _ (fun t => ?_)
        (fun t ht => ?_) hWF hCC
      · by_cases hp : (t.status == Status.paused) = true
        · rw [if_pos hp]
        · rw [if_neg hp]
      · by_cases hp : (t.status == Status.paused) = true
        · rw [if_pos hp] at ht
          exact Status.noConfusion ht
        · rwa [if_neg hp] at ht
  | clearAllAct =>
      exact ⟨⟨List.nodup_nil, fun p hp => absurd hp (List.not_mem_nil p)⟩,
        fun p hp _ => absurd hp (List.not_mem_nil p)⟩

/-- Every reachable state satisfies the invariant. -/
theorem inv_reachable (lects : List (String × Lecture)) (s : MState)
    (h : Reachable lects s) : Inv s := by
  induction h with
  | init =>
      exact ⟨⟨List.nodup_nil, by intro p hp; simp [initState] at hp⟩,
        by intro p hp; simp [initState] at hp⟩
  | step s' a _ ih => exact inv_step s' a ih

/-- Running a list of events preserves reachability. -/
theorem reachable_runActs (lects : List (String × Lecture)) (acts : List Act)
    (s : MState) (h : Reachable lects s) : Reachable lects (runActs s acts) := by
  induction acts generalizing s with
  | nil => exact h
  | cons a rest ih => exact ih (applyAct s a) (Reachable.step s a h)

/-- Task-id uniqueness follows from the key invariant. -/
theorem nodup_task_ids {tasks : List (String × DownloadTask)} (h : TasksWF tasks) :
    ((tasks.map Prod.snd).map DownloadTask.lectureId).Nodup := by
  have heq : (tasks.map Prod.snd).map DownloadTask.lectureId = tasks.map Prod.fst := by
    rw [List.map_map]
    exact List.map_congr_left (fun p hp => h.2 p hp)
  rw [heq]
  exact h.1

/-! Support for the startup-reset claim. -/

theorem mem_loadExistingTasks {ts : List DownloadTask} {p : String × DownloadTask}
    (hp : p ∈ loadExistingTasks ts) : ∃ u ∈ ts, p = (u.lectureId, loadTask u) := by
  suffices h : ∀ (m0 : List (String × DownloadTask)),
      p ∈ ts.foldl (fun m t => mapSet m t.lectureId (loadTask t)) m0 →
      p ∈ m0 ∨ ∃ u ∈ ts, p = (u.lectureId, loadTask u) by
    rcases h [] hp with h1 | h1
    · exact absurd h1 (List.not_mem_nil p)
    · exact h1
  clear hp
  intro m0
  induction ts generalizing m0 with
  | nil =>
      intro hmem
      exact Or.inl hmem
  | cons t rest ih =>
      intro hmem
      rcases ih (mapSet m0 t.lectureId (loadTask t)) hmem with h1 | h1
      · rcases mem_mapSet h1 with h2 | h2
        · exact Or.inr ⟨t, List.mem_cons_self _ _, h2⟩
        · exact Or.inl h2
      · rcases h1 with ⟨u, hu, hpu⟩
        exact Or.inr ⟨u, List.mem_cons_of_mem _ hu, hpu⟩

/-! Support for the eviction claim. -/

theorem sumSizes_cons (e : CacheEntry) (l : List CacheEntry) :
    sumSizes (e :: l) = (e.size : Int) + sumSizes l := by
  simp [sumSizes]

theorem evictSelect_spec (l : List CacheEntry) (target : Int) :
    ∀ freed0 : Int, ∃ k, k ≤ l.length ∧
      evictSelect l target freed0 =
        ((l.take k).map CacheEntry.lectureId, freed0 + sumSizes (l.take k)) ∧
      (∀ j, j < k → freed0 + sumSizes (l.take j) < target) ∧
      (freed0 + sumSizes (l.take k) ≥ target ∨ k = l.length) := by
  induction l with
  | nil =>
      intro freed0
      refine ⟨0, Nat.le_refl 0, ?_, ?_, Or.inr rfl⟩
      · simp [evictSelect, sumSizes]
      · intro j hj
        exact absurd hj (Nat.not_lt_zero j)
  | cons e rest ih =>
      intro freed0
      by_cases hf : freed0 ≥ target
      · refine ⟨0, Nat.zero_le _, ?_, ?_, Or.inl ?_⟩
        · simp [evictSelect, hf, sumSizes]
        · intro j hj
          exact absurd hj (Nat.not_lt_zero j)
        · simpa [sumSizes] using hf
      · rcases ih (freed0 + (e.size : Int)) with ⟨k, hk, heq, hmin, hcov⟩
        refine ⟨k + 1, Nat.succ_le_succ hk, ?_, ?_, ?_⟩
        · show evictSelect (e :: rest) target freed0 = _
          rw [evictSelect, if_neg hf, heq]
          rw [List.take_succ_cons, List.map_cons, sumSizes_cons]
          refine Prod.ext rfl ?_
          show freed0 + (e.size : Int) + sumSizes (rest.take k) = _
          ring
        · intro j hj
          cases j with
          | zero =>
              simpa [sumSizes] using lt_of_not_ge hf
          | succ j' =>
              have hj' : j' < k := Nat.lt_of_succ_lt_succ hj
              have := hmin j' hj'
              rw [List.take_succ_cons, sumSizes_cons]
              linarith
        · rcases hcov with hcov | hcov
          · left
            rw [List.take_succ_cons, sumSizes_cons]
            linarith
          · right
            simp [hcov]

theorem cacheDelete_eq_filter {c : List CacheEntry} (id : String)
    (h : (c.map CacheEntry.lectureId).Nodup) :
    cacheDelete c id = c.filter (fun e => !(e.lectureId == id)) := by
  induction c with
  | nil => rfl
  | cons x rest ih =>
      rw [List.map_cons, List.nodup_cons] at h
      by_cases hx : x.lectureId = id
      · have hrest : rest.filter (fun e => !(e.lectureId == id)) = rest := by
          apply List.filter_eq_self.mpr
          intro e he
          have hne : ¬ e.lectureId = id :=
            fun hh => h.1 (hx ▸ hh ▸ List.mem_map.mpr ⟨e, he, rfl⟩)
          simp [hne]
        simp [cacheDelete, hx, hrest]
      · simp [cacheDelete, hx, ih h.2]

theorem cacheDelete_sublist (c : List CacheEntry) (id : String) :
    List.Sublist (cacheDelete c id) c := by
  induction c with
  | nil => simp [cacheDelete]
  | cons x rest ih =>
      rw [cacheDelete]
      by_cases hx : x.lectureId = id
      · rw [if_pos hx]
        exact List.Sublist.cons _ (List.Sublist.refl _)
      · rw [if_neg hx]
        exact List.Sublist.cons₂ _ ih

theorem foldl_cacheDelete_eq_filter (ids : List String) (c : List CacheEntry)
    (h : (c.map CacheEntry.lectureId).Nodup) :
    ids.foldl cacheDelete c = c.filter (fun e => !(ids.contains e.lectureId)) := by
  induction ids generalizing c with
  | nil => simp
  | cons i rest ih =>
      rw [List.foldl_cons]
      have hnd : ((cacheDelete c i).map CacheEntry.lectureId).Nodup :=
        ((cacheDelete_sublist c i).map CacheEntry.lectureId).nodup h
      rw [ih (cacheDelete c i) hnd, cacheDelete_eq_filter i h, List.filter_filter]
      apply List.filter_congr
      intro e _
      show (!(rest.contains e.lectureId) && !(e.lectureId == i)) =
    !((i :: rest).contains e.lectureId)
      rw [List.contains_cons]
      rw [Bool.not_or]
      rw [Bool.and_comm]

/-! Support for the per-task transfer model. -/

theorem prefixSums_le (l : List Nat) : ∀ acc : Nat, ∀ x ∈ prefixSums l acc, x ≤ acc + l.sum := by
  induction l with
  | nil =>
      intro acc x hx
      simp [prefixSums] at hx
  | cons c rest ih =>
      intro acc x hx
      rw [prefixSums] at hx
      rcases List.mem_cons.mp hx with h1 | h1
      · rw [h1, List.sum_cons]
        omega
      · have := ih (acc + c) x h1
        rw [List.sum_cons]
        omega

theorem runProgress_totalBytes (es : List Nat) (tot : Nat) :
    ∀ t : DownloadTask,
      (runProgress t es tot).totalBytes = if es = [] then t.totalBytes else tot := by
  induction es with
  | nil =>
      intro t
      simp [runProgress]
  | cons e rest ih =>
      intro t
      show (runProgress (applyProgress t e tot) rest tot).totalBytes = _
      rw [ih (applyProgress t e tot)]
      by_cases hr : rest = []
      · simp [hr, applyProgress]
      · simp [hr]

theorem runProgress_bound (es : List Nat) (tot : Nat) :
    ∀ (t : DownloadTask) (k : Nat), t.bytesDownloaded ≤ t.totalBytes →
      (∀ l ∈ es, l ≤ tot) →
      (runProgress t (es.take k) tot).bytesDownloaded ≤
        (runProgress t (es.take k) tot).totalBytes := by
  induction es with
  | nil =>
      intro t k h0 _
      simpa [runProgress] using h0
  | cons e rest ih =>
      intro t k h0 hes
      cases k with
      | zero => simpa [runProgress] using h0
      | succ k' =>
          rw [List.take_succ_cons]
          show (runProgress (applyProgress t e tot) (rest.take k') tot).bytesDownloaded ≤ _
          apply ih (applyProgress t e tot) k'
          · show e ≤ tot
            exact hes e (List.mem_cons_self _ _)
          · intro l hl
            exact hes l (List.mem_cons_of_mem _ hl)

theorem runTransfer_exact (t : DownloadTask) (chunks : List (List Nat)) (total now : Nat)
    (ht : t.totalBytes = total) (hsum : (chunks.map List.length).sum = total) :
    (runTransfer t chunks total now).status = .completed ∧
    (runTransfer t chunks total now).bytesDownloaded =
      (runTransfer t chunks total now).totalBytes := by
  constructor
  · rfl
  · show chunks.flatten.length = (runProgress t (fetchEvents chunks total) total).totalBytes
    rw [runProgress_totalBytes]
    rw [List.length_flatten, hsum]
    by_cases he : fetchEvents chunks total = []
    · rw [if_pos he, ht]
    · rw [if_neg he]

/-! Support for the promotion-pass idempotence claim. -/

theorem activeAdd_not_mem (l : List String) (id : String) (h : id ∉ l) :
    activeAdd l id = l ++ [id] := by
  simp [activeAdd, h]

theorem startDownloadRun_found (s : MState) (id : String) (now : Nat)
    (h : (mapGet s.lectures id).isSome) :
    startDownloadRun s id now =
      { s with tasks := mapUpdate s.tasks id (markDownloading now)
               activeDownloads := activeAdd s.activeDownloads id
               fetching := s.fetching ++ [id] } := by
  rcases hmem : mapGet s.lectures id with _ | lec
  · rw [hmem] at h
    exact absurd h (by simp)
  · unfold startDownloadRun
    rw [hmem]
    rfl

theorem foldStart_spec (ids : List String) :
    ∀ (s : MState) (now : Nat), ids.Nodup →
      (∀ id ∈ ids, id ∉ s.activeDownloads) →
      (∀ id ∈ ids, (mapGet s.lectures id).isSome) →
      (s.tasks.map Prod.fst).Nodup →
      (ids.foldl (fun st i => startDownloadRun st i now) s).tasks
          = s.tasks.map (fun p => if p.1 ∈ ids then (p.1, markDownloading now p.2) else p)
      ∧ (ids.foldl (fun st i => startDownloadRun st i now) s).activeDownloads
          = s.activeDownloads ++ ids
      ∧ (ids.foldl (fun st i => startDownloadRun st i now) s).isPaused = s.isPaused
      ∧ (ids.foldl (fun st i => startDownloadRun st i now) s).lectures = s.lectures
      ∧ (ids.foldl (fun st i => startDownloadRun st i now) s).tokens = s.tokens
      ∧ (ids.foldl (fun st i => startDownloadRun st i now) s).cache = s.cache := by
  induction ids with
  | nil =>
      intro s now _ _ _ _
      refine ⟨?_, by simp, rfl, rfl, rfl, rfl⟩
      show s.tasks = _
      have hmap : s.tasks.map
          (fun p => if p.1 ∈ ([] : List String) then (p.1, markDownloading now p.2) else p)
          = s.tasks := by
        simp
      rw [hmap]
  | cons i rest ih =>
      intro s now hnd hact hlect hkeys
      obtain ⟨hndi, hndrest⟩ := List.nodup_cons.mp hnd
      have hfound := startDownloadRun_found s i now (hlect i (List.mem_cons_self _ _))
      rw [List.foldl_cons]
      have hs1tasks : (startDownloadRun s i now).tasks =
          mapUpdate s.tasks i (markDownloading now) := by rw [hfound]
      have hs1act : (startDownloadRun s i now).activeDownloads =
          s.activeDownloads ++ [i] := by
        rw [hfound]
        exact activeAdd_not_mem _ _ (hact i (List.mem_cons_self _ _))
      have hs1paused : (startDownloadRun s i now).isPaused = s.isPaused := by rw [hfound]
      have hs1lect : (startDownloadRun s i now).lectures = s.lectures := by rw [hfound]
      have hs1tok : (startDownloadRun s i now).tokens = s.tokens := by rw [hfound]
      have hs1cache : (startDownloadRun s i now).cache = s.cache := by rw [hfound]
      have hact1 : ∀ id ∈ rest, id ∉ (startDownloadRun s i now).activeDownloads := by
        intro id hid
        rw [hs1act]
        intro hmem
        rcases List.mem_append.mp hmem with h1 | h1
        · exact hact id (List.mem_cons_of_mem _ hid) h1
        · rcases List.mem_singleton.mp h1 with rfl
          exact hndi hid
      have hlect1 : ∀ id ∈ rest, (mapGet (startDownloadRun s i now).lectures id).isSome := by
        intro id hid
        rw [hs1lect]
        exact hlect id (List.mem_cons_of_mem _ hid)
      have hkeys1 : ((startDownloadRun s i now).tasks.map Prod.fst).Nodup := by
        rw [hs1tasks, keys_mapUpdate]
        exact hkeys
      obtain ⟨iht, iha, ihp, ihl, ihk, ihc⟩ :=
        ih (startDownloadRun s i now) now hndrest hact1 hlect1 hkeys1
      refine ⟨?_, ?_, by rw [ihp, hs1paused], by rw [ihl, hs1lect],
        by rw [ihk, hs1tok], by rw [ihc, hs1cache]⟩
      · rw [iht, hs1tasks, mapUpdate_eq_map (markDownloading now) hkeys, List.map_map]
        apply List.map_congr_left
        intro p _
        simp only [Function.comp_apply]
        by_cases hpi : p.1 = i
        · rw [if_pos hpi]
          have hpr : ¬ ((p.1, markDownloading now p.2).1 ∈ rest) := by
            show ¬ (p.1 ∈ rest)
            rw [hpi]
            exact hndi
          rw [if_neg hpr]
          have hmem : p.1 ∈ i :: rest := by
            rw [hpi]
            exact List.mem_cons_self _ _
          rw [if_pos hmem]
        · rw [if_neg hpi]
          by_cases hpr : p.1 ∈ rest
          · rw [if_pos hpr, if_pos (List.mem_cons_of_mem i hpr)]
          · rw [if_neg hpr]
            have hmem : ¬ p.1 ∈ i :: rest := by
              rw [List.mem_cons]
              push_neg
              exact ⟨hpi, hpr⟩
            rw [if_neg hmem]
      · rw [iha, hs1act, List.append_assoc]
        rfl

theorem processQueueAtomic_of_nil {s : MState} (h : promoteSelection s = [])
    (now : Nat) : processQueueAtomic s now = s := by
  simp [processQueueAtomic, h]

theorem promoteSelection_eq_nil (s : MState)
    (h : s.isPaused = true ∨
      (MAX_CONCURRENT_DOWNLOADS - (s.activeDownloads.length : Int)) ≤ 0 ∨
      pendingTasks s = []) : promoteSelection s = [] := by
  by_cases hp : s.isPaused = true
  · simp [promoteSelection, hp]
  · rcases h with h | h | h
    · exact absurd h hp
    · simp [promoteSelection, hp, h]
    · simp [promoteSelection, hp, h]

theorem promoteSelection_eq_sel (s : MState) (h1 : s.isPaused = false)
    (h2 : 0 < MAX_CONCURRENT_DOWNLOADS - (s.activeDownloads.length : Int))
    (h3 : pendingTasks s ≠ []) :
    promoteSelection s =
      ((pendingTasks s).take
        (MAX_CONCURRENT_DOWNLOADS - (s.activeDownloads.length : Int)).toNat).map
        DownloadTask.lectureId := by
  have hc : ¬ ((MAX_CONCURRENT_DOWNLOADS - (s.activeDownloads.length : Int)) ≤ 0 ∨
      pendingTasks s = []) := not_or.mpr ⟨not_le.mpr h2, h3⟩
  unfold promoteSelection
  rw [h1, if_neg Bool.false_ne_true]
  exact if_neg hc

theorem pendingTasks_mem {s : MState} {t : DownloadTask} (ht : t ∈ pendingTasks s) :
    t.status = .pending ∧ t ∈ s.tasks.map Prod.snd := by
  obtain ⟨hmem, hstat⟩ := List.mem_filter.mp ht
  exact ⟨by simpa using hstat, hmem⟩

theorem mapGet_of_pending {s : MState} {t : DownloadTask}
    (hkeys : (s.tasks.map Prod.fst).Nodup)
    (hmatch : ∀ p ∈ s.tasks, p.2.lectureId = p.1)
    (ht : t ∈ pendingTasks s) : mapGet s.tasks t.lectureId = some t := by
  obtain ⟨_, hmem⟩ := pendingTasks_mem ht
  obtain ⟨p, hp, hp2⟩ := List.mem_map.mp hmem
  have hk : p.1 = t.lectureId := by rw [← hp2]; exact (hmatch p hp).symm
  have : (t.lectureId, t) ∈ s.tasks := by
    have : p = (t.lectureId, t) := Prod.ext hk hp2
    rwa [this] at hp
  exact mapGet_of_mem_nodup hkeys this

theorem mem_promoteSelection {s : MState} {id : String}
    (h : id ∈ promoteSelection s) : ∃ t ∈ pendingTasks s, id = t.lectureId := by
  by_cases hp : s.isPaused = true
  · rw [promoteSelection_eq_nil s (Or.inl hp)] at h
    exact absurd h (List.not_mem_nil id)
  · by_cases hc : (MAX_CONCURRENT_DOWNLOADS - (s.activeDownloads.length : Int)) ≤ 0 ∨
        pendingTasks s = []
    · rw [promoteSelection_eq_nil s (Or.inr hc)] at h
      exact absurd h (List.not_mem_nil id)
    · push_neg at hc
      rw [Bool.not_eq_true] at hp
      rw [promoteSelection_eq_sel s hp hc.1 hc.2] at h
      obtain ⟨t, htake, hid⟩ := List.mem_map.mp h
      exact ⟨t, List.take_subset _ _ htake, hid.symm⟩

theorem nodup_promoteSelection {s : MState}
    (hkeys : (s.tasks.map Prod.fst).Nodup)
    (hmatch : ∀ p ∈ s.tasks, p.2.lectureId = p.1) :
    (promoteSelection s).Nodup := by
  have hids : ((s.tasks.map Prod.snd).map DownloadTask.lectureId).Nodup :=
    nodup_task_ids ⟨hkeys, hmatch⟩
  have hpend : ((pendingTasks s).map DownloadTask.lectureId).Nodup :=
    ((List.filter_sublist _).map DownloadTask.lectureId).nodup hids
  by_cases hp : s.isPaused = true
  · rw [promoteSelection_eq_nil s (Or.inl hp)]
    exact List.nodup_nil
  · by_cases hc : (MAX_CONCURRENT_DOWNLOADS - (s.activeDownloads.length : Int)) ≤ 0 ∨
        pendingTasks s = []
    · rw [promoteSelection_eq_nil s (Or.inr hc)]
      exact List.nodup_nil
    · push_neg at hc
      rw [Bool.not_eq_true] at hp
      rw [promoteSelection_eq_sel s hp hc.1 hc.2]
      exact ((List.take_sublist _ _).map DownloadTask.lectureId).nodup hpend

theorem processQueueAtomic_idem (s : MState) (now now2 : Nat)
    (hkeys : (s.tasks.map Prod.fst).Nodup)
    (hmatch : ∀ p ∈ s.tasks, p.2.lectureId = p.1)
    (hact : ∀ t ∈ pendingTasks s, t.lectureId ∉ s.activeDownloads)
    (hlect : ∀ t ∈ pendingTasks s, (mapGet s.lectures t.lectureId).isSome) :
    processQueueAtomic (processQueueAtomic s now) now2 = processQueueAtomic s now := by
  by_cases hsel : promoteSelection s = []
  · rw [processQueueAtomic_of_nil hsel now, processQueueAtomic_of_nil hsel now2]
  · by_cases hp : s.isPaused = true
    · exact absurd (promoteSelection_eq_nil s (Or.inl hp)) hsel
    by_cases hc : (MAX_CONCURRENT_DOWNLOADS - (s.activeDownloads.length : Int)) ≤ 0 ∨
        pendingTasks s = []
    · exact absurd (promoteSelection_eq_nil s (Or.inr hc)) hsel
    push_neg at hc
    rw [Bool.not_eq_true] at hp
    obtain ⟨hslots, hpend⟩ := hc
    have hseleq := promoteSelection_eq_sel s hp hslots hpend
    have hselact : ∀ id ∈ promoteSelection s, id ∉ s.activeDownloads := by
      intro id hid
      obtain ⟨t, htm, heq⟩ := mem_promoteSelection hid
      rw [heq]
      exact hact t htm
    have hsellect : ∀ id ∈ promoteSelection s, (mapGet s.lectures id).isSome := by
      intro id hid
      obtain ⟨t, htm, heq⟩ := mem_promoteSelection hid
      rw [heq]
      exact hlect t htm
    obtain ⟨ht, ha, hpz, hl, htok, hcz⟩ :=
      foldStart_spec (promoteSelection s) s now (nodup_promoteSelection hkeys hmatch)
        hselact hsellect hkeys
    have hsel2 : promoteSelection (processQueueAtomic s now) = [] := by
      by_cases hAB :
          (MAX_CONCURRENT_DOWNLOADS - (s.activeDownloads.length : Int)).toNat ≤
            (pendingTasks s).length
      · apply promoteSelection_eq_nil
        right
        left
        have hlen : ((processQueueAtomic s now).activeDownloads).length
            = s.activeDownloads.length + (promoteSelection s).length := by
          rw [show (processQueueAtomic s now).activeDownloads =
              s.activeDownloads ++ promoteSelection s from ha, List.length_append]
        have hsellen : (promoteSelection s).length =
            (MAX_CONCURRENT_DOWNLOADS - (s.activeDownloads.length : Int)).toNat := by
          rw [hseleq, List.length_map, List.length_take]
          exact Nat.min_eq_left hAB
        have htn : (((MAX_CONCURRENT_DOWNLOADS -
            (s.activeDownloads.length : Int)).toNat : Int)) =
            MAX_CONCURRENT_DOWNLOADS - (s.activeDownloads.length : Int) :=
          Int.toNat_of_nonneg (le_of_lt hslots)
        rw [hlen, hsellen]
        push_cast
        rw [htn]
        linarith
      · apply promoteSelection_eq_nil
        right
        right
        push_neg at hAB
        have htake : (pendingTasks s).take
            (MAX_CONCURRENT_DOWNLOADS - (s.activeDownloads.length : Int)).toNat =
            pendingTasks s := List.take_of_length_le (le_of_lt hAB)
        have hselfull : promoteSelection s = (pendingTasks s).map DownloadTask.lectureId := by
          rw [hseleq, htake]
        show ((processQueueAtomic s now).tasks.map Prod.snd).filter
            (fun t => t.status == Status.pending) = []
        rw [show (processQueueAtomic s now).tasks =
          s.tasks.map (fun p =>
            if p.1 ∈ promoteSelection s then (p.1, markDownloading now p.2) else p) from ht]
        apply List.filter_eq_nil_iff.mpr
        intro t' hmem
        obtain ⟨q, hq, hqt⟩ := List.mem_map.mp hmem
        obtain ⟨p, hpm, hpq⟩ := List.mem_map.mp hq
        by_cases hin : p.1 ∈ promoteSelection s
        · rw [if_pos hin] at hpq
          rw [← hqt, ← hpq]
          show ¬ ((markDownloading now p.2).status == Status.pending) = true
          simp [markDownloading]
        · rw [if_neg hin] at hpq
          rw [← hqt, ← hpq]
          intro hpendstat
          apply hin
          rw [hselfull]
          have hpmem : p.2 ∈ pendingTasks s :=
            List.mem_filter.mpr ⟨List.mem_map.mpr ⟨p, hpm, rfl⟩, hpendstat⟩
          have hkeyeq : p.1 = p.2.lectureId := (hmatch p hpm).symm
          rw [hkeyeq]
          exact List.mem_map.mpr ⟨p.2, hpmem, rfl⟩
    rw [processQueueAtomic_of_nil hsel2 now2]

/-! The claims. -/

/-- C5: on startup, `loadExistingTasks` rewrites every persisted task whose
status is `downloading` to `pending` with progress 0, loads every task in
any other status unchanged, and every entry of the rebuilt map arises from a
persisted task in exactly this way (the load itself triggers no queue
processing). -/
theorem C5_startup_reset (t : DownloadTask) (ts : List DownloadTask) :
    (t.status = .downloading →
      loadTask t = { t with status := .pending, progress := 0 })
    ∧ (t.status ≠ .downloading → loadTask t = t)
    ∧ (∀ p ∈ loadExistingTasks ts, ∃ u ∈ ts, p = (u.lectureId, loadTask u)) := by
  refine ⟨fun h => ?_, fun h => ?_, fun p hp => mem_loadExistingTasks hp⟩
  · simp [loadTask, h]
  · simp [loadTask, h]

/-- Witness for C5 at a concrete interrupted task and a concrete pending
task. -/
theorem C5_startup_reset_witness :
    loadTask taskXdl = { taskXdl with status := .pending, progress := 0 }
    ∧ loadTask taskYpending = taskYpending :=
  ⟨(C5_startup_reset taskXdl []).1 rfl,
   (C5_startup_reset taskYpending []).2.1 (by decide)⟩

/-- C8: a cached read (`getCachedAudio`) on a hit returns the stored blob
and writes the entry back with `lastAccessed` set to the read time, leaving
blob bytes, size and `cachedAt` unchanged and every other entry untouched;
a miss returns nothing and changes nothing. -/
theorem C8_read_refreshes_recency (c : List CacheEntry) (id : String) (now : Nat) :
    (∀ e, cacheGet c id = some e →
      getCachedAudioBlob c id now =
        (some e.blob, cachePut c { e with lastAccessed := now })
      ∧ cacheGet (getCachedAudioBlob c id now).2 id = some { e with lastAccessed := now }
      ∧ ∀ i, i ≠ id → cacheGet (getCachedAudioBlob c id now).2 i = cacheGet c i)
    ∧ (cacheGet c id = none → getCachedAudioBlob c id now = (none, c)) := by
  constructor
  · intro e he
    have hkey : e.lectureId = id := cacheGet_key he
    have h1 : getCachedAudioBlob c id now =
        (some e.blob, cachePut c { e with lastAccessed := now }) := by
      unfold getCachedAudioBlob
      rw [he]
    refine ⟨h1, ?_, ?_⟩
    · rw [h1]
      show cacheGet (cachePut c { e with lastAccessed := now }) id = _
      rw [← hkey]
      exact cacheGet_cachePut_self c { e with lastAccessed := now }
    · intro i hi
      rw [h1]
      show cacheGet (cachePut c { e with lastAccessed := now }) i = _
      apply cacheGet_cachePut_ne
      show i ≠ e.lectureId
      rw [hkey]
      exact hi
  · intro he
    unfold getCachedAudioBlob
    rw [he]

/-- Witness for C8: a hit on entry A refreshes its recency stamp, a read of
an id absent from the store changes nothing. -/
theorem C8_read_refreshes_recency_witness :
    getCachedAudioBlob [eA] "A" 99 =
      (some eA.blob, cachePut [eA] { eA with lastAccessed := 99 })
    ∧ getCachedAudioBlob [eB] "A" 99 = (none, [eB]) :=
  ⟨((C8_read_refreshes_recency [eA] "A" 99).1 eA (by decide)).1,
   (C8_read_refreshes_recency [eB] "A" 99).2 (by decide)⟩

/-- C9: `retryDownload` resets any existing task — whatever its current
status, including completed, downloading or paused — to `pending` with zero
progress, zero bytes and no error; there is no status precondition. -/
theorem C9_retry_any_status (s : MState) (id : String) (t : DownloadTask)
    (h : mapGet s.tasks id = some t) :
    mapGet (retryDownload s id).tasks id =
      some { t with status := .pending, progress := 0, bytesDownloaded := 0
                    error := none } := by
  show mapGet (mapUpdate s.tasks id _) id = _
  rw [mapGet_mapUpdate_self, h]
  rfl

/-- Witness for C9 at a `completed` task: retry resets it all the same. -/
theorem C9_retry_any_status_witness :
    mapGet (retryDownload sDoneZ "Z").tasks "Z" =
      some { taskZdone with status := .pending, progress := 0, bytesDownloaded := 0
                            error := none } :=
  C9_retry_any_status sDoneZ "Z" taskZdone (by decide)

theorem sumSizes_take_le (l : List CacheEntry) (k : Nat) :
    sumSizes (l.take k) ≤ sumSizes l := by
  have hsplit : sumSizes l = sumSizes (l.take k) + sumSizes (l.drop k) := by
    conv_lhs => rw [← List.take_append_drop k l]
    simp [sumSizes]
  have hdrop : 0 ≤ sumSizes (l.drop k) := by
    apply List.sum_nonneg
    intro x hx
    obtain ⟨e, _, hex⟩ := List.mem_map.mp hx
    rw [← hex]
    exact Int.ofNat_nonneg e.size
  linarith

/-- C6 counterexample: for cached blobs A (10 MB, oldest), B (20 MB), C
(30 MB, newest) and a 25 MB target, the eviction set is exactly A and B —
but the bytes freed are 30 MB, not the 40 MB the claim asserts. -/
theorem C6_eviction_freed_counterexample :
    (evictToFreeSpace [eA, eB, eC] 25).1 = ["A", "B"]
    ∧ (evictToFreeSpace [eA, eB, eC] 25).2.1 = 30
    ∧ ¬ ((evictToFreeSpace [eA, eB, eC] 25).2.1 = 40) := by
  refine ⟨by decide, by decide, by decide⟩

/-- C6 (amended): `evictToFreeSpace` sorts the inventory ascending by
`lastAccessed` (a stable sorted permutation), accumulates the oldest
entries until the cumulative freed bytes reach the target, and deletes
exactly that minimal prefix — all of the inventory when the target exceeds
the total cached bytes; on the concrete example (sizes 10, 20, 30 MB, A
oldest through C newest, target 25 MB) it evicts exactly A and B, freeing
30 MB, and never touches C. -/
theorem C6_eviction_lru_amended (c : List CacheEntry) (target : Int)
    (hnd : (c.map CacheEntry.lectureId).Nodup) :
    List.Perm (sortByLastAccessed c) c
    ∧ List.Sorted lruOrder (sortByLastAccessed c)
    ∧ (∃ k, k ≤ (sortByLastAccessed c).length
        ∧ (evictToFreeSpace c target).1 =
            ((sortByLastAccessed c).take k).map CacheEntry.lectureId
        ∧ (evictToFreeSpace c target).2.1 = sumSizes ((sortByLastAccessed c).take k)
        ∧ (∀ j, j < k → sumSizes ((sortByLastAccessed c).take j) < target)
        ∧ (sumSizes ((sortByLastAccessed c).take k) ≥ target ∨
            k = (sortByLastAccessed c).length))
    ∧ (target > sumSizes c →
        (evictToFreeSpace c target).1 = (sortByLastAccessed c).map CacheEntry.lectureId)
    ∧ (evictToFreeSpace c target).2.2 =
        c.filter (fun e => !((evictToFreeSpace c target).1.contains e.lectureId))
    ∧ evictToFreeSpace [eA, eB, eC] 25 = (["A", "B"], 30, [eC]) := by
  have hperm : List.Perm (sortByLastAccessed c) c := List.perm_insertionSort lruOrder c
  have hsum : sumSizes (sortByLastAccessed c) = sumSizes c := by
    unfold sumSizes
    exact (hperm.map (fun e => (e.size : Int))).sum_eq
  obtain ⟨k, hk, heq, hmin, hcov⟩ := evictSelect_spec (sortByLastAccessed c) target 0
  have hids : (evictToFreeSpace c target).1 =
      ((sortByLastAccessed c).take k).map CacheEntry.lectureId := by
    show (evictSelect (sortByLastAccessed c) target 0).1 = _
    rw [heq]
  have hfreed : (evictToFreeSpace c target).2.1 =
      sumSizes ((sortByLastAccessed c).take k) := by
    show (evictSelect (sortByLastAccessed c) target 0).2 = _
    rw [heq]
    exact zero_add _
  refine ⟨hperm, List.sorted_insertionSort lruOrder c, ⟨k, hk, hids, hfreed, ?_, ?_⟩,
    ?_, ?_, by decide⟩
  · intro j hj
    have := hmin j hj
    linarith
  · rcases hcov with hcov | hcov
    · left
      linarith
    · right
      exact hcov
  · intro htgt
    rcases hcov with hcov | hcov
    · exfalso
      have hle : sumSizes ((sortByLastAccessed c).take k) ≤ sumSizes c := by
        rw [← hsum]
        exact sumSizes_take_le _ k
      linarith
    · rw [hids, hcov, List.take_length]
  · show (evictToFreeSpace c target).1.foldl cacheDelete c = _
    exact foldl_cacheDelete_eq_filter _ c hnd

/-- Witness for C6 at the concrete three-blob inventory. -/
theorem C6_eviction_lru_witness :
    evictToFreeSpace [eA, eB, eC] 25 = (["A", "B"], 30, [eC]) :=
  (C6_eviction_lru_amended [eA, eB, eC] 25 (by decide)).2.2.2.2.2

/-- C10 counterexample: with an existing `paused` task for X and storage
statistics that fail the admission check, `queueDownload` throws the
storage error instead of replacing the task with a fresh pending one. -/
theorem C10_requeue_replace_counterexample :
    mapGet sPausedX.tasks "X" = some taskXpaused
    ∧ taskXpaused.status = .paused
    ∧ queueDownload sPausedX statsLow lecX5 =
        .error "Insufficient storage space. Please free up some space." := by
  refine ⟨rfl, rfl, rfl⟩

/-- C10 (amended): when a task for the item already exists, `queueDownload`
returns normally and changes nothing if it is `completed` or `downloading`;
in any other status it replaces the task with a fresh `pending` task with
zero progress and zero bytes — provided the storage-availability check
passes, leaving the cache and every other task untouched — and throws the
storage error, changing nothing, when the check fails. -/
theorem C10_requeue_frame_amended (s : MState) (stats : StorageStats)
    (lec : Lecture) (t : DownloadTask) (h : mapGet s.tasks lec.id = some t) :
    ((t.status = .completed ∨ t.status = .downloading) →
      queueDownload s stats lec = .ok s)
    ∧ (t.status ≠ .completed → t.status ≠ .downloading →
        (checkStorageAvailability stats (lec.fileSize : Int) = true →
          queueDownload s stats lec =
            .ok (processQueue { s with tasks := mapSet s.tasks lec.id (freshTask lec) })
          ∧ mapGet (processQueue
              { s with tasks := mapSet s.tasks lec.id (freshTask lec) }).tasks lec.id =
              some (freshTask lec)
          ∧ (freshTask lec).status = .pending
          ∧ (freshTask lec).progress = 0
          ∧ (freshTask lec).bytesDownloaded = 0
          ∧ (processQueue
              { s with tasks := mapSet s.tasks lec.id (freshTask lec) }).cache = s.cache
          ∧ ∀ id, id ≠ lec.id →
              mapGet (processQueue
                { s with tasks := mapSet s.tasks lec.id (freshTask lec) }).tasks id =
                mapGet s.tasks id)
        ∧ (checkStorageAvailability stats (lec.fileSize : Int) = false →
            queueDownload s stats lec =
              .error "Insufficient storage space. Please free up some space.")) := by
  constructor
  · intro hst
    unfold queueDownload
    rw [h]
    show (if t.status = Status.completed ∨ t.status = Status.downloading then
        Except.ok s else queueDownloadFresh s stats lec) = Except.ok s
    rw [if_pos hst]
  · intro h1 h2
    have hst : ¬ (t.status = .completed ∨ t.status = .downloading) :=
      not_or.mpr ⟨h1, h2⟩
    constructor
    · intro hcheck
      have hq : queueDownload s stats lec =
          .ok (processQueue { s with tasks := mapSet s.tasks lec.id (freshTask lec) }) := by
        unfold queueDownload
        rw [h]
        show (if t.status = Status.completed ∨ t.status = Status.downloading then
            Except.ok s else queueDownloadFresh s stats lec) = _
        rw [if_neg hst]
        unfold queueDownloadFresh
        rw [if_pos hcheck]
      refine ⟨hq, ?_, rfl, rfl, rfl, rfl, ?_⟩
      · show mapGet (mapSet s.tasks lec.id (freshTask lec)) lec.id = _
        exact mapGet_mapSet_self s.tasks lec.id (freshTask lec)
      · intro id hid
        show mapGet (mapSet s.tasks lec.id (freshTask lec)) id = _
        exact mapGet_mapSet_ne s.tasks lec.id id (freshTask lec) hid
    · intro hcheck
      have hne : ¬ (checkStorageAvailability stats (lec.fileSize : Int) = true) := by
        rw [hcheck]
        exact Bool.false_ne_true
      unfold queueDownload
      rw [h]
      show (if t.status = Status.completed ∨ t.status = Status.downloading then
          Except.ok s else queueDownloadFresh s stats lec) = _
      rw [if_neg hst]
      unfold queueDownloadFresh
      rw [if_neg hne]

/-- Witness for C10: a `completed` task is left alone even when storage is
short, and a `paused` task is replaced by a fresh pending task when the
check passes. -/
theorem C10_requeue_frame_witness :
    queueDownload sDoneZ statsLow lecZ = .ok sDoneZ
    ∧ queueDownload sPausedX statsBig lecX5 =
        .ok (processQueue
          { sPausedX with tasks := mapSet sPausedX.tasks lecX5.id (freshTask lecX5) }) :=
  ⟨(C10_requeue_frame_amended sDoneZ statsLow lecZ taskZdone (by decide)).1
      (Or.inl (by decide)),
   (((C10_requeue_frame_amended sPausedX statsBig lecX5 taskXpaused (by decide)).2
      (by decide) (by decide)).1 (by decide)).1⟩

/-- C1 counterexample: with 10 MB available and a 5 MB item, `queueDownload`
fails with the storage error even though the eviction policy, had it been
consulted for the shortfall, would have freed 200 MB — more than enough for
the availability check to pass afterwards. The enqueue path never attempts
eviction. -/
theorem C1_enqueue_no_eviction_counterexample :
    queueDownload sBig stats90 lecX5 =
      .error "Insufficient storage space. Please free up some space."
    ∧ (evictToFreeSpace sBig.cache
        ((lecX5.fileSize : Int) + STORAGE_BUFFER_MB * 1024 * 1024 - stats90.available)).2.1
        ≥ (lecX5.fileSize : Int) + STORAGE_BUFFER_MB * 1024 * 1024 - stats90.available
    ∧ checkStorageAvailability
        { stats90 with available := stats90.available +
            (evictToFreeSpace sBig.cache
              ((lecX5.fileSize : Int) + STORAGE_BUFFER_MB * 1024 * 1024 -
                stats90.available)).2.1 }
        (lecX5.fileSize : Int) = true := by
  refine ⟨rfl, by decide, by decide⟩

/-- C1 (amended): `queueDownload` makes no eviction attempt — whenever the
headroom check fails, the call throws the storage error at once, creating no
task; when it passes (and no completed or downloading task exists for the
id) a fresh pending task is created and persisted. On the numeric example
of the claim, which posits a 10 MB buffer (the source constant is 50 MB):
quota 100 MB, used 90 MB — a 5 MB enqueue fails the check, and passes it
once at least 15 MB more has been freed. -/
theorem C1_enqueue_storage_check_amended (s : MState) (stats : StorageStats)
    (lec : Lecture)
    (hnew : mapGet s.tasks lec.id = none ∨
      ∃ t, mapGet s.tasks lec.id = some t ∧ t.status ≠ .completed ∧
        t.status ≠ .downloading) :
    (checkStorageAvailability stats (lec.fileSize : Int) = false →
      queueDownload s stats lec =
        .error "Insufficient storage space. Please free up some space.")
    ∧ (checkStorageAvailability stats (lec.fileSize : Int) = true →
        queueDownload s stats lec =
          .ok (processQueue { s with tasks := mapSet s.tasks lec.id (freshTask lec) })
        ∧ mapGet (processQueue
            { s with tasks := mapSet s.tasks lec.id (freshTask lec) }).tasks lec.id =
            some (freshTask lec))
    ∧ checkStorageAvailabilityWith 10 (getStorageStats [] (100 * MB) (90 * MB))
        (5 * MB) = false
    ∧ (∀ f : Int, f ≥ 15 * MB →
        checkStorageAvailabilityWith 10 (getStorageStats [] (100 * MB) (90 * MB - f))
          (5 * MB) = true) := by
  have hfreshOk : checkStorageAvailability stats (lec.fileSize : Int) = true →
      queueDownloadFresh s stats lec =
        .ok (processQueue { s with tasks := mapSet s.tasks lec.id (freshTask lec) }) := by
    intro hcheck
    unfold queueDownloadFresh
    rw [if_pos hcheck]
  have hfreshErr : checkStorageAvailability stats (lec.fileSize : Int) = false →
      queueDownloadFresh s stats lec =
        .error "Insufficient storage space. Please free up some space." := by
    intro hcheck
    have hne : ¬ (checkStorageAvailability stats (lec.fileSize : Int) = true) := by
      rw [hcheck]
      exact Bool.false_ne_true
    unfold queueDownloadFresh
    rw [if_neg hne]
  have hbranch : ∀ r, queueDownloadFresh s stats lec = r → queueDownload s stats lec = r := by
    intro r hr
    rcases hnew with hnone | ⟨t, hsome, h1, h2⟩
    · unfold queueDownload
      rw [hnone]
      exact hr
    · unfold queueDownload
      rw [hsome]
      show (if t.status = Status.completed ∨ t.status = Status.downloading then
          Except.ok s else queueDownloadFresh s stats lec) = r
      rw [if_neg (not_or.mpr ⟨h1, h2⟩)]
      exact hr
  refine ⟨fun hc => hbranch _ (hfreshErr hc), fun hc => ⟨hbranch _ (hfreshOk hc), ?_⟩,
    by decide, ?_⟩
  · show mapGet (mapSet s.tasks lec.id (freshTask lec)) lec.id = _
    exact mapGet_mapSet_self s.tasks lec.id (freshTask lec)
  · intro f hf
    show decide (((100 : Int) * MB - (90 * MB - f)) > 5 * MB + 10 * 1024 * 1024) = true
    rw [decide_eq_true_iff]
    have hMB : MB = 1048576 := rfl
    rw [hMB] at hf ⊢
    omega

/-- Witness for C1: the concrete failing enqueue, and the example check
passing after exactly 15 MB more is free. -/
theorem C1_enqueue_storage_check_witness :
    queueDownload sBig stats90 lecX5 =
      .error "Insufficient storage space. Please free up some space."
    ∧ checkStorageAvailabilityWith 10
        (getStorageStats [] (100 * MB) (90 * MB - 15 * MB)) (5 * MB) = true :=
  ⟨(C1_enqueue_storage_check_amended sBig stats90 lecX5 (Or.inl (by decide))).1
      (by decide),
   (C1_enqueue_storage_check_amended sBig stats90 lecX5 (Or.inl (by decide))).2.2.2
      (15 * MB) (by decide)⟩

/-- C2: the hard concurrency cap is violated by a reachable interleaving.
Queue A and B (their `startDownload` invocations suspend at
`await getLecture` before marking the task or taking a slot), pause both
still-pending tasks, queue C (whose promotion pass sees an empty active
set), then let the three suspended invocations resume: three tasks are
simultaneously `downloading` although `MAX_CONCURRENT_DOWNLOADS` is 2.
Each single `processQueue` pass respects `maxConcurrent - activeCount`;
the cap is broken across passes through the unregistered window. -/
theorem C2_concurrency_cap_violated :
    Reachable lects0 raceState
    ∧ downloadingCount raceState = 3
    ∧ MAX_CONCURRENT_DOWNLOADS = 2 := by
  refine ⟨?_, by decide, rfl⟩
  exact reachable_runActs lects0 acts0 (initState lects0) Reachable.init

/-- C3 counterexample: when the abort signal of the in-flight transfer for X
is observed, the task does not end with an empty error field — the code
records the string `Download cancelled` on it. -/
theorem C3_abort_error_recorded_counterexample :
    mapGet (applyAct s3 (.abortObserved "X")).tasks "X" =
      some { taskXdl with status := .paused, error := some "Download cancelled" }
    ∧ ({ taskXdl with status := .paused, error := some "Download cancelled" } : DownloadTask).error ≠ none := by
  refine ⟨rfl, by decide⟩

theorem head_pending_promoted (s' : MState) (hp : s'.isPaused = false)
    (hsl : 0 < MAX_CONCURRENT_DOWNLOADS - (s'.activeDownloads.length : Int))
    {tp : DownloadTask} (hhead : (pendingTasks s').head? = some tp) :
    tp.lectureId ∈ promoteSelection s' := by
  rcases hpl : pendingTasks s' with _ | ⟨a, rest⟩
  · rw [hpl] at hhead
    exact absurd hhead (by simp)
  · rw [hpl] at hhead
    have hatp : a = tp := by simpa using hhead
    rw [promoteSelection_eq_sel s' hp hsl (by rw [hpl]; exact List.cons_ne_nil a rest)]
    have hpos : 0 <
        (MAX_CONCURRENT_DOWNLOADS - (s'.activeDownloads.length : Int)).toNat := by
      omega
    obtain ⟨n, hn⟩ : ∃ n, (MAX_CONCURRENT_DOWNLOADS -
        (s'.activeDownloads.length : Int)).toNat = n + 1 :=
      ⟨_, (Nat.succ_pred_eq_of_pos hpos).symm⟩
    rw [hn, hpl, List.take_succ_cons, List.map_cons, hatp]
    exact List.mem_cons_self _ _

/-- C3 (amended): observing the abort signal of an in-flight transfer moves
the task to `paused` with its error field set to the string
`Download cancelled` (informational: the task is not `failed`), creates no
cache entry, releases the concurrency slot, and re-runs `processQueue`, so
that when a slot is free the first pending task is promoted (issued a
start token). -/
theorem C3_abort_pause_amended (s : MState) (id : String) (t : DownloadTask)
    (hft : id ∈ s.fetching) (htask : mapGet s.tasks id = some t)
    (hnd : s.activeDownloads.Nodup) :
    mapGet (applyAct s (.abortObserved id)).tasks id =
      some { t with status := .paused, error := some "Download cancelled" }
    ∧ (applyAct s (.abortObserved id)).cache = s.cache
    ∧ (applyAct s (.abortObserved id)).activeDownloads = s.activeDownloads.erase id
    ∧ id ∉ (applyAct s (.abortObserved id)).activeDownloads
    ∧ (s.isPaused = false →
        0 < MAX_CONCURRENT_DOWNLOADS - ((s.activeDownloads.erase id).length : Int) →
        ∀ tp, (pendingTasks (applyAct s (.abortObserved id))).head? = some tp →
          tp.lectureId ∈ (applyAct s (.abortObserved id)).tokens) := by
  have happ : applyAct s (.abortObserved id) = abortDownload s id := by
    show (if id ∈ s.fetching then abortDownload s id else s) = _
    rw [if_pos hft]
  rw [happ]
  refine ⟨?_, rfl, rfl, ?_, ?_⟩
  · show mapGet (mapUpdate s.tasks id _) id = _
    rw [mapGet_mapUpdate_self, htask]
    rfl
  · show id ∉ s.activeDownloads.erase id
    exact hnd.not_mem_erase
  · intro hp hslots tp hhead
    exact List.mem_append.mpr (Or.inr (head_pending_promoted
      { s with
          tasks := mapUpdate s.tasks id (fun u =>
            { u with status := Status.paused, error := some "Download cancelled" })
          fetching := s.fetching.erase id
          activeDownloads := s.activeDownloads.erase id }
      hp hslots hhead))

/-- Witness for C3 at the concrete state with X in flight and Y pending:
the task pauses with the recorded message, the cache is untouched, the slot
is freed, and Y is promoted. -/
theorem C3_abort_pause_witness :
    mapGet (applyAct s3 (.abortObserved "X")).tasks "X" =
      some { taskXdl with status := .paused, error := some "Download cancelled" }
    ∧ (applyAct s3 (.abortObserved "X")).cache = s3.cache
    ∧ "X" ∉ (applyAct s3 (.abortObserved "X")).activeDownloads :=
  ⟨(C3_abort_pause_amended s3 "X" taskXdl (by decide) (by decide) (by decide)).1,
   (C3_abort_pause_amended s3 "X" taskXdl (by decide) (by decide) (by decide)).2.1,
   (C3_abort_pause_amended s3 "X" taskXdl (by decide) (by decide) (by decide)).2.2.2.1⟩

/-- C4: at operation granularity — each promoted `startDownload` run to its
registration point — a redundant promotion pass produces no additional
state transitions (`processQueue` is idempotent), and a promotion pass only
ever selects tasks whose status is `pending`: it never starts a duplicate
transfer for a task that is already `downloading`. The side conditions are
the well-formedness facts of the task store plus the normal regime that
pending tasks hold no slot and their lecture records resolve (a pending
task whose lecture record is missing fails at start, freeing a slot a
redundant pass may then fill). -/
theorem C4_processQueue_idempotent (s : MState) (now now2 : Nat)
    (hkeys : (s.tasks.map Prod.fst).Nodup)
    (hmatch : ∀ p ∈ s.tasks, p.2.lectureId = p.1)
    (hact : ∀ t ∈ pendingTasks s, t.lectureId ∉ s.activeDownloads)
    (hlect : ∀ t ∈ pendingTasks s, (mapGet s.lectures t.lectureId).isSome) :
    processQueueAtomic (processQueueAtomic s now) now2 = processQueueAtomic s now
    ∧ ∀ id ∈ promoteSelection s,
        ∃ t, mapGet s.tasks id = some t ∧ t.status = .pending := by
  refine ⟨processQueueAtomic_idem s now now2 hkeys hmatch hact hlect, ?_⟩
  intro id hid
  obtain ⟨t, htm, heq⟩ := mem_promoteSelection hid
  refine ⟨t, ?_, (pendingTasks_mem htm).1⟩
  rw [heq]
  exact mapGet_of_pending hkeys hmatch htm

/-- Witness for C4 at a concrete state with one active transfer and one
pending task: the second pass changes nothing. -/
theorem C4_processQueue_idempotent_witness :
    processQueueAtomic (processQueueAtomic s3 11) 12 = processQueueAtomic s3 11 :=
  (C4_processQueue_idempotent s3 11 12 (by decide) (by decide) (by decide)
    (by decide)).1

set_option maxRecDepth 16384 in
/-- C7 counterexample: a reachable run in which the server advertises a
content-length of 100 bytes but streams 150 ends with the task `completed`,
`bytesDownloaded = 150` and `totalBytes = 100` — violating both
`bytesDownloaded ≤ totalBytes` and the completion equality as stated. -/
theorem C7_invariant_counterexample :
    Reachable lectsX badState
    ∧ mapGet badState.tasks "X" = some
        { lectureId := "X", status := .completed, progress := 100
          bytesDownloaded := 150, totalBytes := 100, startedAt := some 1
          completedAt := some 2, error := none }
    ∧ (150 : Nat) ≠ 100 := by
  refine ⟨reachable_runActs lectsX acts7 (initState lectsX) Reachable.init,
    by decide, by decide⟩

/-- C7 (amended): in every reachable state at most one task exists per item
id and every `completed` task has a cached blob under its id; and provided a
transfer delivers exactly the byte count declared by its content-length
(which also matches the declared task size), `bytesDownloaded ≤ totalBytes`
holds after every progress event and completion ends with
`bytesDownloaded = totalBytes`. -/
theorem C7_invariants_amended :
    (∀ (lects : List (String × Lecture)) (s : MState), Reachable lects s →
      ((s.tasks.map Prod.snd).map DownloadTask.lectureId).Nodup
      ∧ ∀ p ∈ s.tasks, p.2.status = .completed → (cacheGet s.cache p.1).isSome)
    ∧ (∀ (t : DownloadTask) (chunks : List (List Nat)) (total now : Nat),
        t.bytesDownloaded = 0 → t.totalBytes = total →
        (chunks.map List.length).sum = total →
        (∀ k, (runProgress t ((fetchEvents chunks total).take k) total).bytesDownloaded
            ≤ (runProgress t ((fetchEvents chunks total).take k) total).totalBytes)
        ∧ (runTransfer t chunks total now).status = .completed
        ∧ (runTransfer t chunks total now).bytesDownloaded =
            (runTransfer t chunks total now).totalBytes) := by
  constructor
  · intro lects s hreach
    obtain ⟨hWF, hCC⟩ := inv_reachable lects s hreach
    exact ⟨nodup_task_ids hWF, hCC⟩
  · intro t chunks total now h0 ht hsum
    have hexact := runTransfer_exact t chunks total now ht hsum
    refine ⟨?_, hexact.1, hexact.2⟩
    intro k
    apply runProgress_bound
    · rw [h0]
      exact Nat.zero_le _
    · intro l hl
      unfold fetchEvents at hl
      by_cases htp : total > 0
      · rw [if_pos htp] at hl
        have hle := prefixSums_le (chunks.map List.length) 0 l hl
        omega
      · rw [if_neg htp] at hl
        exact absurd hl (List.not_mem_nil l)

/-- Witness for C7: an honest 100-byte stream completes the fresh task with
matching byte counters, and the startup state trivially satisfies the
store invariants. -/
theorem C7_invariants_witness :
    (runTransfer tX [List.replicate 100 0] 100 7).status = .completed
    ∧ (runTransfer tX [List.replicate 100 0] 100 7).bytesDownloaded =
        (runTransfer tX [List.replicate 100 0] 100 7).totalBytes
    ∧ (((initState lectsX).tasks.map Prod.snd).map DownloadTask.lectureId).Nodup :=
  ⟨(C7_invariants_amended.2 tX [List.replicate 100 0] 100 7 rfl rfl (by decide)).2.1,
   (C7_invariants_amended.2 tX [List.replicate 100 0] 100 7 rfl rfl (by decide)).2.2,
   (C7_invariants_amended.1 lectsX (initState lectsX) Reachable.init).1⟩

end Noorbakhshia
